import Mathlib

/-!
Verification of the credresolve balance ledger and debt-simplification engine.

This file gives a shallow embedding, in Lean 4, of the core services of the
credresolve repository (src/server/services/balance_service.py,
expense_service.py, settlement_service.py) and proves the testable
properties of its specification against that embedding.

Modelling conventions:
- Python float amounts are modelled as exact rationals (ℚ).  All arithmetic
  in the source is ordinary field arithmetic plus rounding to 2 decimal
  places; round(x, 2) is modelled as rounding x to an integer number of
  hundredths with ties going to the even hundredth, matching the semantics
  of the Python round builtin on decimal values.
- The SQLite balances table is modelled as a list of records in row order;
  INSERT appends at the end and DELETE removes the matching rows, so the
  list order is the insertion order of the surviving rows.
- Expense rows carry a creation timestamp; the expenses list of a state is
  kept in creation order, so the SQL query ORDER BY created_at DESC is
  modelled as reversing that list.  Settlement rows are read back without
  an ORDER BY clause, i.e. in insertion order.
- uuid4 identifiers are modelled as caller-supplied strings.
-/

namespace CredResolve

/-- Rounding of a rational to the nearest integer with ties to even,
modelling the Python round builtin. -/
def roundHalfEven (x : ℚ) : ℤ :=
  if Int.fract x = 1/2 then (if Even ⌊x⌋ then ⌊x⌋ else ⌊x⌋ + 1) else round x

/-- Model of round(x, 2): round to the nearest hundredth. -/
def round2 (x : ℚ) : ℚ := (roundHalfEven (100 * x) : ℚ) / 100

/-- A directed balance row of the balances table. -/
structure Balance where
  groupId : String
  fromUserId : String
  toUserId : String
  amount : ℚ
deriving DecidableEq, Repr

/-- A stored expense split row (user_id, amount, percentage); a missing
percentage column is modelled as 0, matching the dict .get default. -/
structure Split where
  userId : String
  amount : ℚ
  percentage : ℚ
deriving DecidableEq, Repr

/-- The three split types of expense_service.py. -/
inductive SplitType where
  | EQUAL
  | EXACT
  | PERCENTAGE
deriving DecidableEq, Repr

/-- An expense row together with its split rows. -/
structure Expense where
  id : String
  groupId : String
  description : String
  totalAmount : ℚ
  paidBy : String
  splitType : SplitType
  splits : List Split
deriving DecidableEq, Repr

/-- A settlement row. -/
structure Settlement where
  id : String
  groupId : String
  fromUserId : String
  toUserId : String
  amount : ℚ
deriving DecidableEq, Repr

/-- A group with its member list (owned by the group collaborator; the
engine only reads it). -/
structure Group where
  id : String
  members : List String
deriving DecidableEq, Repr

/-- The group store is an external collaborator; group CRUD is out of
scope, so it is a fixed environment. -/
abbrev GroupStore := List Group

/-- get_group of group_service.py, restricted to what the engine reads. -/
def getGroup (env : GroupStore) (gid : String) : Option Group :=
  env.find? (fun g => decide (g.id = gid))

/-- The persistent state the ledger engine reads and writes. -/
structure State where
  balances : List Balance
  expenses : List Expense
  settlements : List Settlement
deriving DecidableEq, Repr

/-- The empty initial state. -/
def initState : State := { balances := [], expenses := [], settlements := [] }

/-! ### BalanceService -/

/-- BalanceService.set_balance: delete the existing row for the directed
pair, then insert the new amount only if it is positive. -/
def set_balance (g f t : String) (amount : ℚ) (store : List Balance) : List Balance :=
  let deleted := store.filter
    (fun b => !(decide (b.groupId = g ∧ b.fromUserId = f ∧ b.toUserId = t)))
  if 0 < amount then deleted ++ [⟨g, f, t, amount⟩] else deleted

/-- BalanceService.get_balance_between_users: the stored raw amount of the
directed pair, 0 when there is no row. -/
def get_balance_between_users (store : List Balance) (g f t : String) : ℚ :=
  match store.find? (fun b => decide (b.groupId = g ∧ b.fromUserId = f ∧ b.toUserId = t)) with
  | some b => b.amount
  | none => 0

/-- BalanceService.update_balance: the netting update engine. -/
def update_balance (g f t : String) (amount : ℚ) (store : List Balance) : List Balance :=
  let reverse := get_balance_between_users store g t f
  if 0 < reverse then
    if amount < reverse then
      set_balance g t f (reverse - amount) store
    else if reverse < amount then
      set_balance g f t (amount - reverse) (set_balance g t f 0 store)
    else
      set_balance g t f 0 store
  else
    set_balance g f t (get_balance_between_users store g f t + amount) store

/-- map_row_to_balance: amounts are rounded to 2 decimals when read back. -/
def map_row_to_balance (b : Balance) : Balance :=
  { b with amount := round2 b.amount }

/-- BalanceService.get_group_balances: all rows of the group whose raw
amount is positive, each with its amount rounded to 2 decimals. -/
def get_group_balances (store : List Balance) (g : String) : List Balance :=
  ((store.filter (fun b => decide (b.groupId = g))).filter
    (fun b => decide (0 < b.amount))).map map_row_to_balance

/-- BalanceService.clear_group_balances. -/
def clear_group_balances (store : List Balance) (g : String) : List Balance :=
  store.filter (fun b => !(decide (b.groupId = g)))

/-- One pass of BalanceService.apply_smart_settlement: walk the snapshot
entries in stored order, reducing each by up to the remaining settlement
amount; the loop breaks once the remaining amount is exhausted. -/
def reduce_pass (g : String) : List Balance → ℚ → List Balance → List Balance
  | [], _, store => store
  | e :: es, remaining, store =>
    if remaining ≤ 0 then store
    else
      let reduction := min e.amount remaining
      reduce_pass g es (remaining - reduction)
        (set_balance g e.fromUserId e.toUserId (e.amount - reduction) store)

/-- BalanceService.apply_smart_settlement: reduce the payer debts and then,
from a fresh copy of the amount and the same stale snapshot, the recipient
credits. -/
def apply_smart_settlement (g payer recipient : String) (amount : ℚ)
    (store : List Balance) : List Balance :=
  let all_balances := get_group_balances store g
  let payer_debts := all_balances.filter (fun b => decide (b.fromUserId = payer))
  let total_payer_debt : ℚ := (payer_debts.map (fun b => b.amount)).sum
  let recipient_credits := all_balances.filter (fun b => decide (b.toUserId = recipient))
  let total_recipient_credit : ℚ := (recipient_credits.map (fun b => b.amount)).sum
  let s1 := if 0 < total_payer_debt then reduce_pass g payer_debts amount store else store
  if 0 < total_recipient_credit then reduce_pass g recipient_credits amount s1 else s1

/-! ### Debt simplifier -/

/-- One update of the Python net dict: add v to the entry of key k,
inserting the key at the end on first touch. -/
def dictAdd (d : List (String × ℚ)) (k : String) (v : ℚ) : List (String × ℚ) :=
  if d.any (fun p => decide (p.1 = k)) then
    d.map (fun p => if p.1 = k then (p.1, p.2 + v) else p)
  else d ++ [(k, v)]

/-- Build the per-user net dictionary from the balance list, in encounter
order, as get_simplified_balances does. -/
def buildNet : List Balance → List (String × ℚ) → List (String × ℚ)
  | [], d => d
  | b :: bs, d => buildNet bs (dictAdd (dictAdd d b.fromUserId (-b.amount)) b.toUserId b.amount)

/-- The two-pointer greedy matching loop of get_simplified_balances.
Advancing a pointer is modelled by dropping the head of the corresponding
list; a head that keeps a residual of at least 0.01 is pushed back.  In the
branch where the debtor residual is at least 0.01 the matched amount was
the credit, so the creditor residual is 0 and only the creditor pointer
advances, exactly as in the source. -/
def simplifyLoop (g : String) : List (String × ℚ) → List (String × ℚ) → List Balance
  | [], _ => []
  | _ :: _, [] => []
  | (debtor, debt) :: ds, (creditor, credit) :: cs =>
    let amount := min debt credit
    let tx : Balance := ⟨g, debtor, creditor, round2 amount⟩
    let dRes := debt - amount
    let cRes := credit - amount
    if dRes < 1/100 then
      if cRes < 1/100 then tx :: simplifyLoop g ds cs
      else tx :: simplifyLoop g ds ((creditor, cRes) :: cs)
    else tx :: simplifyLoop g ((debtor, dRes) :: ds) cs
  termination_by ds cs => ds.length + cs.length

/-- BalanceService.get_simplified_balances. -/
def get_simplified_balances (store : List Balance) (g : String) : List Balance :=
  let balances := get_group_balances store g
  let net := buildNet balances []
  let debtors := (net.filter (fun p => decide (p.2 < -(1/100)))).map (fun p => (p.1, -p.2))
  let creditors := net.filter (fun p => decide (1/100 < p.2))
  let debtorsSorted := debtors.mergeSort (fun a b => decide (b.2 ≤ a.2))
  let creditorsSorted := creditors.mergeSort (fun a b => decide (b.2 ≤ a.2))
  simplifyLoop g debtorsSorted creditorsSorted

/-! ### Split calculator -/

/-- Validation error tags of validate_expense, in the order the source
appends the corresponding messages. -/
inductive ExpenseError where
  | totalNotPositive
  | emptySplit
  | exactSumMismatch
  | percentageSumMismatch
  | negativeAmount (i : ℕ)
  | negativePercentage (i : ℕ)
deriving DecidableEq, Repr

/-- Per-split negative-share checks of validate_expense. -/
def splitErrors (ty : SplitType) (splits : List Split) : List ExpenseError :=
  (splits.enum.map (fun p =>
    (if ty = SplitType.EXACT ∧ p.2.amount < 0 then [ExpenseError.negativeAmount p.1] else []) ++
    (if ty = SplitType.PERCENTAGE ∧ p.2.percentage < 0 then [ExpenseError.negativePercentage p.1] else []))).flatten

/-- validate_expense of expense_service.py; the expense is valid iff the
returned error list is empty. -/
def validate_expense (total : ℚ) (ty : SplitType) (splits : List Split) : List ExpenseError :=
  (if total ≤ 0 then [ExpenseError.totalNotPositive] else []) ++
  (if splits = [] then [ExpenseError.emptySplit] else []) ++
  (if ty = SplitType.EXACT ∧ 1/100 < |((splits.map (fun s => s.amount)).sum) - total| then
    [ExpenseError.exactSumMismatch] else []) ++
  (if ty = SplitType.PERCENTAGE ∧ 1/100 < |((splits.map (fun s => s.percentage)).sum) - 100| then
    [ExpenseError.percentageSumMismatch] else []) ++
  splitErrors ty splits

/-- A computed share {userId, amount} produced by calculate_splits. -/
structure CalcSplit where
  userId : String
  amount : ℚ
deriving DecidableEq, Repr

/-- calculate_splits of expense_service.py.  The unknown-split-type error
branch is unrepresentable because SplitType is exhaustive. -/
def calculate_splits (total : ℚ) (ty : SplitType) (splits : List Split) : List CalcSplit :=
  match ty with
  | SplitType.EQUAL =>
    splits.map (fun s => ⟨s.userId, round2 (total / splits.length)⟩)
  | SplitType.EXACT =>
    splits.map (fun s => ⟨s.userId, s.amount⟩)
  | SplitType.PERCENTAGE =>
    splits.map (fun s => ⟨s.userId, round2 (s.percentage / 100 * total)⟩)

/-! ### ExpenseService -/

/-- The input of ExpenseService.add_expense, with the uuid4 expense id
modelled as a caller-supplied string. -/
structure ExpenseData where
  id : String
  groupId : String
  description : String
  totalAmount : ℚ
  paidBy : String
  splitType : SplitType
  splits : List Split
deriving DecidableEq, Repr

/-- ExpenseService.add_expense: validations, then insertion of the expense
with its computed split rows, then one update_balance call per non-payer
participant, in split order.  Every raise happens before any write. -/
def add_expense (env : GroupStore) (d : ExpenseData) (s : State) : Except String State :=
  match getGroup env d.groupId with
  | none => Except.error "Group not found"
  | some group =>
    if d.paidBy ∉ group.members then Except.error "Payer must be a group member"
    else if ¬ (∀ sp ∈ d.splits, sp.userId ∈ group.members) then
      Except.error "Users not in group"
    else if validate_expense d.totalAmount d.splitType d.splits ≠ [] then
      Except.error "Validation failed"
    else
      let calculated := calculate_splits d.totalAmount d.splitType d.splits
      let storedSplits := calculated.map (fun cs =>
        let pct : ℚ := if d.splitType = SplitType.PERCENTAGE then
            match d.splits.find? (fun os => decide (os.userId = cs.userId)) with
            | some os => os.percentage
            | none => 0
          else 0
        (⟨cs.userId, cs.amount, pct⟩ : Split))
      let exp : Expense :=
        ⟨d.id, d.groupId, d.description, d.totalAmount, d.paidBy, d.splitType, storedSplits⟩
      let newBalances := (calculated.filter (fun cs => decide (cs.userId ≠ d.paidBy))).foldl
        (fun st cs => update_balance d.groupId cs.userId d.paidBy cs.amount st) s.balances
      Except.ok { s with expenses := s.expenses ++ [exp], balances := newBalances }

/-- ExpenseService.get_group_expenses: ORDER BY created_at DESC, i.e. the
reverse of creation order. -/
def get_group_expenses (s : State) (g : String) : List Expense :=
  (s.expenses.filter (fun e => decide (e.groupId = g))).reverse

/-- Replay of one expense inside recalculate_group_balances: recompute its
splits and call update_balance once per non-payer participant. -/
def replay_expense (g : String) (e : Expense) (store : List Balance) : List Balance :=
  (calculate_splits e.totalAmount e.splitType e.splits).foldl
    (fun st cs => if cs.userId ≠ e.paidBy then update_balance g cs.userId e.paidBy cs.amount st else st)
    store

/-- Replay of one settlement inside recalculate_group_balances: subtract
min(settlement.amount, current balance) from the stored from-to direction,
doing nothing when no positive balance is stored there. -/
def replay_settlement (store : List Balance) (sm : Settlement) : List Balance :=
  let current := get_balance_between_users store sm.groupId sm.fromUserId sm.toUserId
  if 0 < current then
    update_balance sm.groupId sm.fromUserId sm.toUserId (-(min sm.amount current)) store
  else store

/-- ExpenseService.recalculate_group_balances: clear the group, replay the
surviving expenses as returned by get_group_expenses, then replay the
group settlements in insertion order. -/
def recalculate_group_balances (env : GroupStore) (g : String) (s : State) :
    Except String State :=
  match getGroup env g with
  | none => Except.error "Group not found"
  | some _ =>
    let b0 := clear_group_balances s.balances g
    let b1 := (get_group_expenses s g).foldl (fun st e => replay_expense g e st) b0
    let b2 := (s.settlements.filter (fun sm => decide (sm.groupId = g))).foldl
      replay_settlement b1
    Except.ok { s with balances := b2 }

/-- ExpenseService.delete_expense: the expense row is deleted first; the
subsequent recalculation raises after the deletion when the group is
missing, which is modelled by returning the partially mutated state with
the error. -/
def delete_expense (env : GroupStore) (eid : String) (s : State) :
    State × Except String Bool :=
  match s.expenses.find? (fun e => decide (e.id = eid)) with
  | none => (s, Except.ok false)
  | some exp =>
    let s1 := { s with expenses := s.expenses.filter (fun e => !(decide (e.id = eid))) }
    match recalculate_group_balances env exp.groupId s1 with
    | Except.ok s2 => (s2, Except.ok true)
    | Except.error msg => (s1, Except.error msg)

/-! ### SettlementService -/

/-- Error taxonomy of record_settlement, in the order the source raises. -/
inductive SettlementError where
  | groupNotFound
  | notAMember
  | nonPositiveAmount
  | payerNotInDebt
  | recipientNotOwed
  | settlementExceedsBalance
deriving DecidableEq, Repr

/-- The input of SettlementService.record_settlement, with the uuid4
settlement id modelled as a caller-supplied string. -/
structure SettlementData where
  id : String
  groupId : String
  fromUserId : String
  toUserId : String
  amount : ℚ
deriving DecidableEq, Repr

/-- Net position of a user over a balance list, computed exactly as the
loops of record_settlement do (the from side is checked first). -/
def netOf (balances : List Balance) (u : String) : ℚ :=
  balances.foldl (fun acc b =>
    if b.fromUserId = u then acc - b.amount
    else if b.toUserId = u then acc + b.amount
    else acc) 0

/-- SettlementService.record_settlement.  The state is threaded through
every path: each validation failure returns the input state unchanged
together with the error, mirroring that the source raises before any
write; on success the settlement row is inserted and the smart settlement
applied, and the payer's recomputed rounded net is returned. -/
def record_settlement (env : GroupStore) (d : SettlementData) (s : State) :
    State × Except SettlementError ℚ :=
  match getGroup env d.groupId with
  | none => (s, Except.error SettlementError.groupNotFound)
  | some group =>
    if ¬ (d.fromUserId ∈ group.members ∧ d.toUserId ∈ group.members) then
      (s, Except.error SettlementError.notAMember)
    else if d.amount ≤ 0 then
      (s, Except.error SettlementError.nonPositiveAmount)
    else
      let all_balances := get_group_balances s.balances d.groupId
      let from_user_net := netOf all_balances d.fromUserId
      let to_user_net := netOf all_balances d.toUserId
      if 0 ≤ from_user_net then (s, Except.error SettlementError.payerNotInDebt)
      else if to_user_net ≤ 0 then (s, Except.error SettlementError.recipientNotOwed)
      else
        let max_allowed := min |from_user_net| |to_user_net|
        if max_allowed + 1/100 < d.amount then
          (s, Except.error SettlementError.settlementExceedsBalance)
        else
          let s1 := { s with settlements :=
            s.settlements ++ [(⟨d.id, d.groupId, d.fromUserId, d.toUserId, d.amount⟩ : Settlement)] }
          let newBalances :=
            apply_smart_settlement d.groupId d.fromUserId d.toUserId d.amount s1.balances
          let s2 := { s1 with balances := newBalances }
          let remaining := netOf (get_group_balances s2.balances d.groupId) d.fromUserId
          (s2, Except.ok (round2 remaining))

/-! ### Ledger operations and reachability -/

/-- The ledger-affecting operations of the engine. -/
inductive Op where
  | addExpense (d : ExpenseData)
  | recordSettlement (d : SettlementData)
  | deleteExpense (id : String)
  | recalculate (g : String)

/-- Apply one operation; a raised validation or not-found error leaves the
state as the service left it. -/
def applyOp (env : GroupStore) (s : State) : Op → State
  | Op.addExpense d =>
    match add_expense env d s with
    | Except.ok s1 => s1
    | Except.error _ => s
  | Op.recordSettlement d => (record_settlement env d s).1
  | Op.deleteExpense eid => (delete_expense env eid s).1
  | Op.recalculate g =>
    match recalculate_group_balances env g s with
    | Except.ok s1 => s1
    | Except.error _ => s

/-- Run a sequence of operations from the empty ledger. -/
def runOps (env : GroupStore) (ops : List Op) : State :=
  ops.foldl (applyOp env) initState

/-! ### Derived notions used by the specification -/

/-- The net value of a user over a balance list as the specification
defines it: amounts owed to the user minus amounts the user owes. -/
def netValue (balances : List Balance) (u : String) : ℚ :=
  ((balances.filter (fun b => decide (b.toUserId = u))).map (fun b => b.amount)).sum -
  ((balances.filter (fun b => decide (b.fromUserId = u))).map (fun b => b.amount)).sum

/-- Whether a directed balance row is stored for the given key. -/
def hasRecord (store : List Balance) (g f t : String) : Bool :=
  (store.find? (fun b => decide (b.groupId = g ∧ b.fromUserId = f ∧ b.toUserId = t))).isSome

/-- The storage key of a balance row. -/
def keyOf (b : Balance) : String × String × String := (b.groupId, b.fromUserId, b.toUserId)

/-- The key of the opposite direction of a balance row. -/
def revKey (b : Balance) : String × String × String := (b.groupId, b.toUserId, b.fromUserId)

/-- Well-formedness of the balances table: distinct keys, positive raw
amounts, no self-loop rows, and no pair of rows in opposite directions. -/
def BalInv (store : List Balance) : Prop :=
  (store.map keyOf).Nodup ∧
  (∀ b ∈ store, 0 < b.amount) ∧
  (∀ b ∈ store, b.fromUserId ≠ b.toUserId) ∧
  (∀ b ∈ store, ∀ b2 ∈ store, keyOf b2 ≠ revKey b)

instance (store : List Balance) : Decidable (BalInv store) := by
  unfold BalInv
  infer_instance

/-- A rational that is an integer number of hundredths. -/
def Cents (q : ℚ) : Prop := ∃ n : ℤ, q = n / 100

/-! ### Lookup and update characterization lemmas -/

theorem find?_filter_eq_find? {α : Type} (st : List α) (p q : α → Bool)
    (h : ∀ a, q a = true → p a = true) :
    (st.filter p).find? q = st.find? q := by
  rw [List.find?_filter]
  congr 1
  funext a
  rcases hq : q a with _ | _
  · simp [hq]
  · simp [hq, h a hq]

theorem find?_filter_none {α : Type} (st : List α) (p q : α → Bool)
    (h : ∀ a, q a = true → p a = false) :
    (st.filter p).find? q = none := by
  rw [List.find?_eq_none]
  intro x hx
  rcases hq : q x with _ | _
  · simp
  · have := (List.mem_filter.mp hx).2
    rw [h x hq] at this
    exact absurd this (by simp)

theorem get_set_balance_same (st : List Balance) (g f t : String) (v : ℚ) :
    get_balance_between_users (set_balance g f t v st) g f t = if 0 < v then v else 0 := by
  unfold set_balance get_balance_between_users
  have hnone : (st.filter
        (fun b => !(decide (b.groupId = g ∧ b.fromUserId = f ∧ b.toUserId = t)))).find?
      (fun b => decide (b.groupId = g ∧ b.fromUserId = f ∧ b.toUserId = t)) = none := by
    apply find?_filter_none
    intro a ha
    simp only [decide_eq_true_eq] at ha
    simp [ha.1, ha.2.1, ha.2.2]
  by_cases hv : 0 < v
  · simp only [if_pos hv, List.find?_append, hnone]
    simp
  · simp only [if_neg hv, hnone]

theorem get_set_balance_other (st : List Balance) (g f t x y z : String) (v : ℚ)
    (h : ¬(g = x ∧ f = y ∧ t = z)) :
    get_balance_between_users (set_balance g f t v st) x y z =
      get_balance_between_users st x y z := by
  unfold set_balance get_balance_between_users
  have hfil : (st.filter
        (fun b => !(decide (b.groupId = g ∧ b.fromUserId = f ∧ b.toUserId = t)))).find?
      (fun b => decide (b.groupId = x ∧ b.fromUserId = y ∧ b.toUserId = z)) =
      st.find? (fun b => decide (b.groupId = x ∧ b.fromUserId = y ∧ b.toUserId = z)) := by
    apply find?_filter_eq_find?
    intro a ha
    simp only [decide_eq_true_eq] at ha
    simp only [Bool.not_eq_true', decide_eq_false_iff_not]
    rintro ⟨h1, h2, h3⟩
    exact h ⟨by rw [← h1, ha.1], by rw [← h2, ha.2.1], by rw [← h3, ha.2.2]⟩
  by_cases hv : 0 < v
  · simp only [if_pos hv, List.find?_append, hfil]
    have hrow : List.find?
        (fun b => decide (b.groupId = x ∧ b.fromUserId = y ∧ b.toUserId = z))
        [(⟨g, f, t, v⟩ : Balance)] = none := by
      simp only [List.find?_singleton]
      rw [if_neg]
      simp only [decide_eq_true_eq]
      exact h
    rw [hrow, Option.or_none]
  · simp only [if_neg hv, hfil]

theorem mem_set_balance {b : Balance} {st : List Balance} {g f t : String} {v : ℚ} :
    b ∈ set_balance g f t v st ↔
      (b ∈ st ∧ ¬(b.groupId = g ∧ b.fromUserId = f ∧ b.toUserId = t)) ∨
      (0 < v ∧ b = ⟨g, f, t, v⟩) := by
  unfold set_balance
  by_cases hv : 0 < v <;>
    simp [hv, List.mem_filter, List.mem_append] <;> tauto

theorem get_pos_exists_row {st : List Balance} {g f t : String}
    (h : 0 < get_balance_between_users st g f t) :
    ∃ r ∈ st, r.groupId = g ∧ r.fromUserId = f ∧ r.toUserId = t ∧
      r.amount = get_balance_between_users st g f t := by
  unfold get_balance_between_users at h ⊢
  rcases hfind : st.find? (fun b => decide (b.groupId = g ∧ b.fromUserId = f ∧ b.toUserId = t)) with
    _ | r
  · rw [hfind] at h
    exact absurd h (by norm_num)
  · have hmem := List.mem_of_find?_eq_some hfind
    have hp := List.find?_some hfind
    simp only [decide_eq_true_eq] at hp
    rw [hfind]
    exact ⟨r, hmem, hp.1, hp.2.1, hp.2.2, rfl⟩

theorem get_eq_zero_of_no_row {st : List Balance} {g f t : String}
    (h : ∀ r ∈ st, ¬(r.groupId = g ∧ r.fromUserId = f ∧ r.toUserId = t)) :
    get_balance_between_users st g f t = 0 := by
  unfold get_balance_between_users
  rw [List.find?_eq_none.mpr]
  intro x hx
  simpa using h x hx

theorem keyOf_eq_iff {r : Balance} {g f t : String} :
    keyOf r = (g, f, t) ↔ r.groupId = g ∧ r.fromUserId = f ∧ r.toUserId = t := by
  simp [keyOf, Prod.ext_iff]

theorem get_of_mem {st : List Balance} {r : Balance}
    (hnd : (st.map keyOf).Nodup) (hr : r ∈ st) :
    get_balance_between_users st r.groupId r.fromUserId r.toUserId = r.amount := by
  induction st with
  | nil => exact absurd hr (List.not_mem_nil r)
  | cons b bs ih =>
    simp only [List.map_cons, List.nodup_cons] at hnd
    unfold get_balance_between_users
    by_cases hb : b.groupId = r.groupId ∧ b.fromUserId = r.fromUserId ∧ b.toUserId = r.toUserId
    · rw [List.find?_cons_of_pos _ (by simpa using hb)]
      rcases List.mem_cons.mp hr with rfl | hrbs
      · rfl
      · exfalso
        apply hnd.1
        have : keyOf b = keyOf r := by simp [keyOf, hb.1, hb.2.1, hb.2.2]
        rw [this]
        exact List.mem_map_of_mem keyOf hrbs
    · rw [List.find?_cons_of_neg _ (by simpa using hb)]
      rcases List.mem_cons.mp hr with rfl | hrbs
      · exact absurd ⟨rfl, rfl, rfl⟩ hb
      · exact ih hnd.2 hrbs

theorem keys_nodup_set_balance {st : List Balance} (g f t : String) (v : ℚ)
    (hst : (st.map keyOf).Nodup) :
    ((set_balance g f t v st).map keyOf).Nodup := by
  unfold set_balance
  have hfil : (((st.filter
      (fun b => !(decide (b.groupId = g ∧ b.fromUserId = f ∧ b.toUserId = t)))).map keyOf)).Nodup :=
    ((List.filter_sublist st).map keyOf).nodup hst
  by_cases hv : 0 < v
  · simp only [if_pos hv, List.map_append, List.map_cons, List.map_nil]
    rw [List.nodup_append]
    refine ⟨hfil, List.nodup_singleton _, ?_⟩
    intro k hk hk2
    simp only [List.mem_map, List.mem_filter, Bool.not_eq_true', decide_eq_false_iff_not] at hk
    obtain ⟨r, ⟨_, hrk⟩, rfl⟩ := hk
    simp only [List.mem_singleton] at hk2
    apply hrk
    apply keyOf_eq_iff.mp
    simpa [keyOf] using hk2
  · simp only [if_neg hv]
    exact hfil

theorem balInv_set_balance {st : List Balance} {g f t : String} {v : ℚ}
    (hinv : BalInv st) (hft : f ≠ t)
    (hrev : 0 < v → ∀ r ∈ st, ¬(r.groupId = g ∧ r.fromUserId = t ∧ r.toUserId = f)) :
    BalInv (set_balance g f t v st) := by
  obtain ⟨hnd, hpos, hself, hnorev⟩ := hinv
  refine ⟨keys_nodup_set_balance g f t v hnd, ?_, ?_, ?_⟩
  · intro b hb
    rcases mem_set_balance.mp hb with ⟨hmem, _⟩ | ⟨hv, rfl⟩
    · exact hpos b hmem
    · exact hv
  · intro b hb
    rcases mem_set_balance.mp hb with ⟨hmem, _⟩ | ⟨_, rfl⟩
    · exact hself b hmem
    · exact hft
  · intro b hb b2 hb2
    rcases mem_set_balance.mp hb with ⟨hbm, hbk⟩ | ⟨hv0, rfl⟩ <;>
      rcases mem_set_balance.mp hb2 with ⟨hb2m, hb2k⟩ | ⟨hv0b, rfl⟩
    · exact hnorev b hbm b2 hb2m
    · intro heq
      simp only [keyOf, revKey, Prod.ext_iff] at heq
      exact hrev hv0b b hbm ⟨heq.1.symm, heq.2.2.symm, heq.2.1.symm⟩
    · intro heq
      simp only [keyOf, revKey, Prod.ext_iff] at heq
      exact hrev hv0 b2 hb2m ⟨heq.1, heq.2.1, heq.2.2⟩
    · intro heq
      simp only [keyOf, revKey, Prod.ext_iff] at heq
      exact hft heq.2.1

theorem balInv_filter {st : List Balance} (p : Balance → Bool) (hinv : BalInv st) :
    BalInv (st.filter p) := by
  obtain ⟨hnd, hpos, hself, hnorev⟩ := hinv
  refine ⟨((List.filter_sublist st).map keyOf).nodup hnd, ?_, ?_, ?_⟩
  · intro b hb
    exact hpos b (List.mem_filter.mp hb).1
  · intro b hb
    exact hself b (List.mem_filter.mp hb).1
  · intro b hb b2 hb2
    exact hnorev b (List.mem_filter.mp hb).1 b2 (List.mem_filter.mp hb2).1

theorem no_row_of_get_nonpos {st : List Balance} {g f t : String}
    (hnd : (st.map keyOf).Nodup) (hpos : ∀ b ∈ st, 0 < b.amount)
    (h : ¬ 0 < get_balance_between_users st g f t) :
    ∀ r ∈ st, ¬(r.groupId = g ∧ r.fromUserId = f ∧ r.toUserId = t) := by
  intro r hr hk
  apply h
  obtain ⟨h1, h2, h3⟩ := hk
  rw [← h1, ← h2, ← h3, get_of_mem hnd hr]
  exact hpos r hr

theorem balInv_update_balance {st : List Balance} {g f t : String} (δ : ℚ)
    (hinv : BalInv st) (hft : f ≠ t) :
    BalInv (update_balance g f t δ st) := by
  unfold update_balance
  by_cases h1 : 0 < get_balance_between_users st g t f
  · obtain ⟨r, hrm, hr1, hr2, hr3, _⟩ := get_pos_exists_row h1
    have hno_ft : ∀ r2 ∈ st, ¬(r2.groupId = g ∧ r2.fromUserId = f ∧ r2.toUserId = t) := by
      intro r2 hr2m hk
      exact hinv.2.2.2 r hrm r2 hr2m
        (by simp [keyOf, revKey, hk.1, hk.2.1, hk.2.2, hr1, hr2, hr3])
    by_cases h2 : δ < get_balance_between_users st g t f
    · simp only [if_pos h1, if_pos h2]
      exact balInv_set_balance hinv hft.symm (fun _ => hno_ft)
    · by_cases h3 : get_balance_between_users st g t f < δ
      · simp only [if_pos h1, if_neg h2, if_pos h3]
        have hinv1 : BalInv (set_balance g t f 0 st) :=
          balInv_set_balance hinv hft.symm (fun h0 => absurd h0 (by norm_num))
        apply balInv_set_balance hinv1 hft
        intro _ r2 hr2m hk
        rcases mem_set_balance.mp hr2m with ⟨_, hne⟩ | ⟨h0, _⟩
        · exact hne hk
        · exact absurd h0 (by norm_num)
      · simp only [if_pos h1, if_neg h2, if_neg h3]
        exact balInv_set_balance hinv hft.symm (fun h0 => absurd h0 (by norm_num))
  · simp only [if_neg h1]
    apply balInv_set_balance hinv hft
    intro _ r2 hr2m hk
    exact no_row_of_get_nonpos hinv.1 hinv.2.1 h1 r2 hr2m hk

theorem reduce_pass_inv (g : String) :
    ∀ (entries : List Balance) (amount : ℚ) (st others : List Balance),
    BalInv st →
    (∀ e, (e ∈ entries ∨ e ∈ others) → e.fromUserId ≠ e.toUserId) →
    (∀ e, (e ∈ entries ∨ e ∈ others) → ∀ r ∈ st,
        ¬(r.groupId = g ∧ r.fromUserId = e.toUserId ∧ r.toUserId = e.fromUserId)) →
    (∀ e, (e ∈ entries ∨ e ∈ others) → ∀ e2, (e2 ∈ entries ∨ e2 ∈ others) →
        ¬(e.fromUserId = e2.toUserId ∧ e.toUserId = e2.fromUserId)) →
    BalInv (reduce_pass g entries amount st) ∧
    (∀ e ∈ others, ∀ r ∈ reduce_pass g entries amount st,
        ¬(r.groupId = g ∧ r.fromUserId = e.toUserId ∧ r.toUserId = e.fromUserId)) := by
  intro entries
  induction entries with
  | nil =>
    intro amount st others hinv _ habs _
    exact ⟨hinv, fun e he => habs e (Or.inr he)⟩
  | cons e es ih =>
    intro amount st others hinv hself habs hcross
    unfold reduce_pass
    by_cases hrem : amount ≤ 0
    · rw [if_pos hrem]
      exact ⟨hinv, fun e2 he2 => habs e2 (Or.inr he2)⟩
    · rw [if_neg hrem]
      have hmem : e ∈ e :: es ∨ e ∈ others := Or.inl (List.mem_cons_self e es)
      have hinv1 : BalInv (set_balance g e.fromUserId e.toUserId (e.amount - min e.amount amount) st) :=
        balInv_set_balance hinv (hself e hmem) (fun _ => habs e hmem)
      have hsub : ∀ e2, (e2 ∈ es ∨ e2 ∈ others) → (e2 ∈ e :: es ∨ e2 ∈ others) := by
        intro e2 h2
        rcases h2 with h2 | h2
        · exact Or.inl (List.mem_cons_of_mem e h2)
        · exact Or.inr h2
      refine ih (amount - min e.amount amount)
        (set_balance g e.fromUserId e.toUserId (e.amount - min e.amount amount) st) others hinv1
        (fun e2 h2 => hself e2 (hsub e2 h2)) ?_ (fun e2 h2 e3 h3 => hcross e2 (hsub e2 h2) e3 (hsub e3 h3))
      intro e2 h2 r hr hk
      rcases mem_set_balance.mp hr with ⟨hrm, _⟩ | ⟨_, rfl⟩
      · exact habs e2 (hsub e2 h2) r hrm hk
      · exact hcross e hmem e2 (hsub e2 h2) ⟨hk.2.1, hk.2.2⟩

theorem mem_group_balances {st : List Balance} {g : String} {e : Balance}
    (he : e ∈ get_group_balances st g) :
    ∃ r ∈ st, r.groupId = g ∧ r.fromUserId = e.fromUserId ∧ r.toUserId = e.toUserId ∧
      0 < r.amount ∧ e.amount = round2 r.amount := by
  unfold get_group_balances at he
  obtain ⟨r, hr, rfl⟩ := List.mem_map.mp he
  obtain ⟨hr2, hpos⟩ := List.mem_filter.mp hr
  obtain ⟨hr3, hg⟩ := List.mem_filter.mp hr2
  refine ⟨r, hr3, by simpa using hg, rfl, rfl, by simpa using hpos, rfl⟩

theorem balInv_apply_smart_settlement {st : List Balance}
    (g payer recipient : String) (amount : ℚ) (hinv : BalInv st) :
    BalInv (apply_smart_settlement g payer recipient amount st) := by
  unfold apply_smart_settlement
  have hself : ∀ e ∈ get_group_balances st g, e.fromUserId ≠ e.toUserId := by
    intro e he
    obtain ⟨r, hrm, _, h2, h3, _, _⟩ := mem_group_balances he
    rw [← h2, ← h3]
    exact hinv.2.2.1 r hrm
  have habs : ∀ e ∈ get_group_balances st g, ∀ r ∈ st,
      ¬(r.groupId = g ∧ r.fromUserId = e.toUserId ∧ r.toUserId = e.fromUserId) := by
    intro e he r hrm hk
    obtain ⟨re, hrem, h1, h2, h3, _, _⟩ := mem_group_balances he
    exact hinv.2.2.2 re hrem r hrm
      (by simp [keyOf, revKey, hk.1, hk.2.1, hk.2.2, h1, h2, h3])
  have hcross : ∀ e ∈ get_group_balances st g, ∀ e2 ∈ get_group_balances st g,
      ¬(e.fromUserId = e2.toUserId ∧ e.toUserId = e2.fromUserId) := by
    intro e he e2 he2 hk
    obtain ⟨re, hrem, h1, h2, h3, _, _⟩ := mem_group_balances he
    obtain ⟨re2, hre2m, h4, h5, h6, _, _⟩ := mem_group_balances he2
    exact hinv.2.2.2 re hrem re2 hre2m
      (by simp [keyOf, revKey, h1, h2, h3, h4, h5, h6, hk.1, hk.2])
  have hdebts : ∀ e ∈ (get_group_balances st g).filter (fun b => decide (b.fromUserId = payer)),
      e ∈ get_group_balances st g := fun e he => (List.mem_filter.mp he).1
  have hcreds : ∀ e ∈ (get_group_balances st g).filter (fun b => decide (b.toUserId = recipient)),
      e ∈ get_group_balances st g := fun e he => (List.mem_filter.mp he).1
  have hunion : ∀ e, (e ∈ (get_group_balances st g).filter (fun b => decide (b.fromUserId = payer)) ∨
      e ∈ (get_group_balances st g).filter (fun b => decide (b.toUserId = recipient))) →
      e ∈ get_group_balances st g := by
    intro e he
    rcases he with he | he
    · exact hdebts e he
    · exact hcreds e he
  have hpass1 := reduce_pass_inv g
    ((get_group_balances st g).filter (fun b => decide (b.fromUserId = payer))) amount st
    ((get_group_balances st g).filter (fun b => decide (b.toUserId = recipient))) hinv
    (fun e he => hself e (hunion e he))
    (fun e he => habs e (hunion e he))
    (fun e he e2 he2 => hcross e (hunion e he) e2 (hunion e2 he2))
  by_cases hp : (0:ℚ) <
      (((get_group_balances st g).filter (fun b => decide (b.fromUserId = payer))).map
        (fun b => b.amount)).sum
  · simp only [if_pos hp]
    by_cases hc : (0:ℚ) <
        (((get_group_balances st g).filter (fun b => decide (b.toUserId = recipient))).map
          (fun b => b.amount)).sum
    · simp only [if_pos hc]
      have hpass2 := reduce_pass_inv g
        ((get_group_balances st g).filter (fun b => decide (b.toUserId = recipient))) amount
        (reduce_pass g
          ((get_group_balances st g).filter (fun b => decide (b.fromUserId = payer))) amount st)
        [] hpass1.1
        (fun e he => hself e (hunion e (Or.inr (by simpa using he))))
        (fun e he => by
          rcases he with he | he
          · exact hpass1.2 e he
          · exact absurd he (List.not_mem_nil e))
        (fun e he e2 he2 => hcross e (hunion e (Or.inr (by simpa using he))) e2 (hunion e2 (Or.inr (by simpa using he2))))
      exact hpass2.1
    · simp only [if_neg hc]
      exact hpass1.1
  · simp only [if_neg hp]
    by_cases hc : (0:ℚ) <
        (((get_group_balances st g).filter (fun b => decide (b.toUserId = recipient))).map
          (fun b => b.amount)).sum
    · simp only [if_pos hc]
      have hpass2 := reduce_pass_inv g
        ((get_group_balances st g).filter (fun b => decide (b.toUserId = recipient))) amount st
        [] hinv
        (fun e he => hself e (hunion e (Or.inr (by simpa using he))))
        (fun e he => by
          rcases he with he | he
          · exact habs e (hunion e (Or.inr he))
          · exact absurd he (List.not_mem_nil e))
        (fun e he e2 he2 => hcross e (hunion e (Or.inr (by simpa using he))) e2 (hunion e2 (Or.inr (by simpa using he2))))
      exact hpass2.1
    · simp only [if_neg hc]
      exact hinv

theorem balInv_foldl_mem {α : Type} {f : List Balance → α → List Balance} {P : α → Prop}
    (hf : ∀ st a, P a → BalInv st → BalInv (f st a)) :
    ∀ (l : List α), (∀ a ∈ l, P a) → ∀ st, BalInv st → BalInv (l.foldl f st) := by
  intro l
  induction l with
  | nil => intro _ st hinv; exact hinv
  | cons a as ih =>
    intro hP st hinv
    exact ih (fun x hx => hP x (List.mem_cons_of_mem a hx)) (f st a)
      (hf st a (hP a (List.mem_cons_self a as)) hinv)

theorem balInv_replay_expense {st : List Balance} (g : String) (e : Expense)
    (hinv : BalInv st) : BalInv (replay_expense g e st) := by
  unfold replay_expense
  refine balInv_foldl_mem (P := fun _ => True) ?_ _ (fun _ _ => trivial) st hinv
  intro st2 cs _ hinv2
  by_cases hne : cs.userId ≠ e.paidBy
  · rw [if_pos hne]
    exact balInv_update_balance _ hinv2 hne
  · rw [if_neg hne]
    exact hinv2

theorem balInv_replay_settlement {st : List Balance} (sm : Settlement)
    (hinv : BalInv st) : BalInv (replay_settlement st sm) := by
  unfold replay_settlement
  by_cases hc : 0 < get_balance_between_users st sm.groupId sm.fromUserId sm.toUserId
  · rw [if_pos hc]
    obtain ⟨r, hrm, _, h2, h3, _⟩ := get_pos_exists_row hc
    have hne : sm.fromUserId ≠ sm.toUserId := by
      rw [← h2, ← h3]
      exact hinv.2.2.1 r hrm
    exact balInv_update_balance _ hinv hne
  · rw [if_neg hc]
    exact hinv

theorem balInv_recalculate {env : GroupStore} {g : String} {s s1 : State}
    (hinv : BalInv s.balances)
    (h : recalculate_group_balances env g s = Except.ok s1) : BalInv s1.balances := by
  unfold recalculate_group_balances at h
  rcases hg : getGroup env g with _ | grp
  · rw [hg] at h
    exact absurd h (by simp)
  · rw [hg] at h
    simp only [Except.ok.injEq] at h
    subst h
    refine balInv_foldl_mem (f := replay_settlement) (P := fun _ => True)
      (fun st a _ hi => balInv_replay_settlement a hi) _ (fun _ _ => trivial) _ ?_
    refine balInv_foldl_mem (f := fun st e => replay_expense g e st) (P := fun _ => True)
      (fun st a _ hi => balInv_replay_expense g a hi) _ (fun _ _ => trivial) _ ?_
    exact balInv_filter _ hinv

set_option maxHeartbeats 1000000 in
theorem balInv_add_expense {env : GroupStore} {d : ExpenseData} {s s1 : State}
    (hinv : BalInv s.balances)
    (h : add_expense env d s = Except.ok s1) : BalInv s1.balances := by
  unfold add_expense at h
  rcases hg : getGroup env d.groupId with _ | grp <;> simp only [hg] at h
  · exact Except.noConfusion h
  · by_cases h1 : d.paidBy ∉ grp.members
    · rw [if_pos h1] at h
      exact Except.noConfusion h
    rw [if_neg h1] at h
    by_cases h2 : ¬ (∀ sp ∈ d.splits, sp.userId ∈ grp.members)
    · rw [if_pos h2] at h
      exact Except.noConfusion h
    rw [if_neg h2] at h
    by_cases h3 : validate_expense d.totalAmount d.splitType d.splits ≠ []
    · rw [if_pos h3] at h
      exact Except.noConfusion h
    rw [if_neg h3] at h
    simp only [Except.ok.injEq] at h
    subst h
    show BalInv (((calculate_splits d.totalAmount d.splitType d.splits).filter
        (fun cs => decide (cs.userId ≠ d.paidBy))).foldl
      (fun st cs => update_balance d.groupId cs.userId d.paidBy cs.amount st) s.balances)
    refine balInv_foldl_mem
      (P := fun cs => cs.userId ≠ d.paidBy) ?_ _ ?_ s.balances hinv
    · intro st cs hcs hinv2
      exact balInv_update_balance _ hinv2 hcs
    · intro cs hcs
      simpa using (List.mem_filter.mp hcs).2

theorem balInv_record_settlement {env : GroupStore} {d : SettlementData} {s : State}
    (hinv : BalInv s.balances) : BalInv (record_settlement env d s).1.balances := by
  unfold record_settlement
  rcases hg : getGroup env d.groupId with _ | grp <;> simp only [hg]
  · exact hinv
  · split_ifs <;> try exact hinv
    exact balInv_apply_smart_settlement _ _ _ _ hinv

theorem balInv_delete_expense {env : GroupStore} {eid : String} {s : State}
    (hinv : BalInv s.balances) : BalInv (delete_expense env eid s).1.balances := by
  unfold delete_expense
  rcases hf : s.expenses.find? (fun e => decide (e.id = eid)) with _ | exp <;> simp only [hf]
  · exact hinv
  · rcases hr : recalculate_group_balances env exp.groupId
        { s with expenses := s.expenses.filter (fun e => !(decide (e.id = eid))) } with msg | s2 <;>
      simp only [hr]
    · exact hinv
    · exact balInv_recalculate
        (s := { s with expenses := s.expenses.filter (fun e => !(decide (e.id = eid))) }) hinv hr

theorem balInv_applyOp (env : GroupStore) (s : State) (o : Op)
    (hinv : BalInv s.balances) : BalInv (applyOp env s o).balances := by
  rcases o with d | d | eid | g
  · simp only [applyOp]
    rcases h : add_expense env d s with msg | s1 <;> simp only [h]
    · exact hinv
    · exact balInv_add_expense hinv h
  · exact balInv_record_settlement hinv
  · exact balInv_delete_expense hinv
  · simp only [applyOp]
    rcases h : recalculate_group_balances env g s with msg | s1 <;> simp only [h]
    · exact hinv
    · exact balInv_recalculate hinv h

theorem balInv_runOps (env : GroupStore) (ops : List Op) :
    BalInv (runOps env ops).balances := by
  unfold runOps
  have hinit : BalInv initState.balances := by
    refine ⟨List.nodup_nil, ?_, ?_, ?_⟩ <;> intro b hb <;>
      exact absurd hb (List.not_mem_nil b)
  generalize hs : initState = s0
  rw [hs] at hinit
  clear hs
  induction ops generalizing s0 with
  | nil => exact hinit
  | cons o os ih => exact ih (applyOp env s0 o) (balInv_applyOp env s0 o hinit)

/-! ### Rounding lemmas -/

theorem abs_sub_roundHalfEven (x : ℚ) : |x - (roundHalfEven x : ℚ)| ≤ 1/2 := by
  unfold roundHalfEven
  by_cases hfr : Int.fract x = 1/2
  · have hd : x - (⌊x⌋ : ℚ) = 1/2 := by
      rw [Int.self_sub_floor]
      exact hfr
    rw [if_pos hfr]
    by_cases he : Even ⌊x⌋
    · rw [if_pos he, hd, abs_of_nonneg (by norm_num : (0:ℚ) ≤ 1/2)]
    · rw [if_neg he]
      push_cast
      rw [show x - ((⌊x⌋:ℚ) + 1) = -(1/2) by linarith, abs_neg,
        abs_of_nonneg (by norm_num : (0:ℚ) ≤ 1/2)]
  · rw [if_neg hfr]
    exact abs_sub_round x

theorem abs_sub_round2 (x : ℚ) : |x - round2 x| ≤ 1/200 := by
  unfold round2
  have h := abs_sub_roundHalfEven (100 * x)
  have h2 : x - (roundHalfEven (100 * x) : ℚ) / 100 = (100 * x - (roundHalfEven (100 * x) : ℚ)) / 100 := by
    ring
  rw [h2, abs_div]
  rw [show |(100:ℚ)| = 100 by norm_num]
  linarith

theorem cents_round2 (x : ℚ) : Cents (round2 x) := ⟨roundHalfEven (100 * x), rfl⟩

theorem round2_eq_of_cents {q : ℚ} (h : Cents q) : round2 q = q := by
  obtain ⟨n, rfl⟩ := h
  unfold round2 roundHalfEven
  have h100 : (100:ℚ) * (n / 100) = (n:ℚ) := by
    field_simp
  rw [h100]
  have hfr : Int.fract ((n:ℚ)) = 0 := Int.fract_intCast n
  rw [hfr]
  rw [if_neg (by norm_num)]
  rw [round_intCast]

theorem round2_nonneg {x : ℚ} (h : 0 ≤ x) : 0 ≤ round2 x := by
  unfold round2
  have hr : (0:ℤ) ≤ roundHalfEven (100 * x) := by
    unfold roundHalfEven
    have hfl : (0:ℤ) ≤ ⌊(100:ℚ) * x⌋ := Int.floor_nonneg.mpr (by positivity)
    by_cases hfr : Int.fract ((100:ℚ) * x) = 1/2
    · rw [if_pos hfr]
      by_cases he : Even ⌊(100:ℚ) * x⌋
      · rw [if_pos he]
        exact hfl
      · rw [if_neg he]
        omega
    · rw [if_neg hfr]
      rw [round_eq]
      have : (0:ℤ) ≤ ⌊(100:ℚ) * x + 1/2⌋ := Int.floor_nonneg.mpr (by positivity)
      exact this
  positivity

/-! ### The no-double-direction invariant -/

theorem balInv_min_nonpos {st : List Balance} (hinv : BalInv st) (g a b : String) :
    min (get_balance_between_users st g a b) (get_balance_between_users st g b a) ≤ 0 := by
  by_contra hlt
  push_neg at hlt
  have h1 : 0 < get_balance_between_users st g a b := lt_of_lt_of_le hlt (min_le_left _ _)
  have h2 : 0 < get_balance_between_users st g b a := lt_of_lt_of_le hlt (min_le_right _ _)
  obtain ⟨r1, hr1, e1, e2, e3, _⟩ := get_pos_exists_row h1
  obtain ⟨r2, hr2, f1, f2, f3, _⟩ := get_pos_exists_row h2
  exact hinv.2.2.2 r1 hr1 r2 hr2 (by simp [keyOf, revKey, e1, e2, e3, f1, f2, f3])

/-- C1: for every reachable ledger state (any sequence of expense
additions, settlement recordings, expense deletions and recalculations
starting from the empty ledger) and every group and user pair, the two
directed balances are never simultaneously positive: their minimum is
never above zero. -/
theorem c1_no_double_direction (env : GroupStore) (ops : List Op) (g a b : String) :
    min (get_balance_between_users (runOps env ops).balances g a b)
      (get_balance_between_users (runOps env ops).balances g b a) ≤ 0 :=
  balInv_min_nonpos (balInv_runOps env ops) g a b

/-! ### C10: positivity of stored balances -/

/-- C10 counterexample: a reachable ledger (one EXACT expense of 0.004)
stores a positive raw amount 1/250, but getGroupBalances rounds it to 0 in
the returned entry, so the returned list is not positive-amount only. -/
theorem c10_counterexample :
    get_group_balances (runOps [⟨"g", ["alice", "bob"]⟩]
        [Op.addExpense ⟨"e1", "g", "snack", 1/250, "alice", SplitType.EXACT,
          [⟨"bob", 1/250, 0⟩]⟩]).balances "g" =
      [⟨"g", "bob", "alice", 0⟩] ∧
    ¬ (∀ b ∈ get_group_balances (runOps [⟨"g", ["alice", "bob"]⟩]
        [Op.addExpense ⟨"e1", "g", "snack", 1/250, "alice", SplitType.EXACT,
          [⟨"bob", 1/250, 0⟩]⟩]).balances "g", 0 < b.amount) := by
  have heval : get_group_balances (runOps [⟨"g", ["alice", "bob"]⟩]
      [Op.addExpense ⟨"e1", "g", "snack", 1/250, "alice", SplitType.EXACT,
        [⟨"bob", 1/250, 0⟩]⟩]).balances "g" = [⟨"g", "bob", "alice", 0⟩] := by
    norm_num +decide [runOps, applyOp, add_expense, getGroup, initState, validate_expense,
      splitErrors, calculate_splits, update_balance, get_balance_between_users, set_balance,
      get_group_balances, map_row_to_balance, round2, roundHalfEven, Int.fract, round_eq,
      List.find?, List.filter, List.foldl, List.enum, List.enumFrom]
  refine ⟨heval, fun hall => ?_⟩
  have h0 := hall ⟨"g", "bob", "alice", 0⟩ (by rw [heval]; exact List.mem_singleton.mpr rfl)
  exact absurd h0 (by norm_num)

/-- C10 amended: every stored balance row of a reachable ledger has a
positive raw amount; set_balance with a nonpositive amount deletes the
row instead of storing it; and every entry returned by getGroupBalances
corresponds to a stored positive raw amount, its returned rounded amount
being nonnegative (but possibly 0 for a sub-cent stored amount). -/
theorem c10_stored_balances_positive :
    (∀ (env : GroupStore) (ops : List Op), ∀ b ∈ (runOps env ops).balances, 0 < b.amount) ∧
    (∀ (g f t : String) (a : ℚ) (st : List Balance), a ≤ 0 →
      hasRecord (set_balance g f t a st) g f t = false) ∧
    (∀ (st : List Balance) (g : String), ∀ b ∈ get_group_balances st g,
      (∃ r ∈ st, r.groupId = g ∧ r.fromUserId = b.fromUserId ∧ r.toUserId = b.toUserId ∧
        0 < r.amount ∧ b.amount = round2 r.amount) ∧ 0 ≤ b.amount) := by
  refine ⟨?_, ?_, ?_⟩
  · intro env ops b hb
    exact (balInv_runOps env ops).2.1 b hb
  · intro g f t a st ha
    unfold hasRecord set_balance
    rw [if_neg (by linarith : ¬ (0:ℚ) < a)]
    rw [find?_filter_none]
    · rfl
    · intro r hr
      simp only [decide_eq_true_eq] at hr
      simp [hr.1, hr.2.1, hr.2.2]
  · intro st g b hb
    obtain ⟨r, hr, h1, h2, h3, h4, h5⟩ := mem_group_balances hb
    exact ⟨⟨r, hr, h1, h2, h3, h4, h5⟩, h5 ▸ round2_nonneg (le_of_lt h4)⟩

/-- C10 witness: the amended theorem applied at concrete inputs, with each
hypothesis discharged. -/
theorem c10_witness :
    (0:ℚ) < (⟨"g", "bob", "alice", (10:ℚ)⟩ : Balance).amount ∧
    hasRecord (set_balance "g" "a" "b" 0 [⟨"g", "a", "b", 5⟩]) "g" "a" "b" = false ∧
    (0:ℚ) ≤ (⟨"g", "b", "a", (5:ℚ)⟩ : Balance).amount := by
  have heval : (runOps [⟨"g", ["alice", "bob"]⟩]
      [Op.addExpense ⟨"e1", "g", "snack", 10, "alice", SplitType.EXACT,
        [⟨"bob", 10, 0⟩]⟩]).balances = [⟨"g", "bob", "alice", 10⟩] := by
    norm_num +decide [runOps, applyOp, add_expense, getGroup, initState, validate_expense,
      splitErrors, calculate_splits, update_balance, get_balance_between_users, set_balance,
      List.find?, List.filter, List.foldl, List.enum, List.enumFrom]
  have heval2 : get_group_balances [(⟨"g", "b", "a", (5:ℚ)⟩ : Balance)] "g" =
      [⟨"g", "b", "a", 5⟩] := by
    norm_num +decide [get_group_balances, map_row_to_balance, round2, roundHalfEven,
      Int.fract, round_eq, List.filter]
  refine ⟨?_, ?_, ?_⟩
  · exact c10_stored_balances_positive.1 [⟨"g", ["alice", "bob"]⟩]
      [Op.addExpense ⟨"e1", "g", "snack", 10, "alice", SplitType.EXACT, [⟨"bob", 10, 0⟩]⟩]
      ⟨"g", "bob", "alice", 10⟩ (by rw [heval]; exact List.mem_singleton.mpr rfl)
  · exact c10_stored_balances_positive.2.1 "g" "a" "b" 0 [⟨"g", "a", "b", 5⟩] le_rfl
  · exact (c10_stored_balances_positive.2.2 [⟨"g", "b", "a", 5⟩] "g" ⟨"g", "b", "a", 5⟩
      (by rw [heval2]; exact List.mem_singleton.mpr rfl)).2

/-! ### C2: the netting algorithm of update_balance -/

theorem get_nonneg {st : List Balance} (hpos : ∀ b ∈ st, 0 < b.amount) (g f t : String) :
    0 ≤ get_balance_between_users st g f t := by
  unfold get_balance_between_users
  rcases hfind : st.find? (fun b => decide (b.groupId = g ∧ b.fromUserId = f ∧ b.toUserId = t)) with
    _ | r <;> simp only [hfind]
  · exact le_refl (0:ℚ)
  · exact le_of_lt (hpos r (List.mem_of_find?_eq_some hfind))

theorem hasRecord_set_balance_same (st : List Balance) (g f t : String) (v : ℚ) :
    hasRecord (set_balance g f t v st) g f t = decide (0 < v) := by
  unfold hasRecord set_balance
  have hnone : (st.filter
        (fun b => !(decide (b.groupId = g ∧ b.fromUserId = f ∧ b.toUserId = t)))).find?
      (fun b => decide (b.groupId = g ∧ b.fromUserId = f ∧ b.toUserId = t)) = none := by
    apply find?_filter_none
    intro a ha
    simp only [decide_eq_true_eq] at ha
    simp [ha.1, ha.2.1, ha.2.2]
  by_cases hv : 0 < v
  · rw [if_pos hv, List.find?_append, hnone]
    simp [hv]
  · rw [if_neg hv, hnone]
    simp [hv]

theorem hasRecord_set_balance_other (st : List Balance) {g f t x y z : String} (v : ℚ)
    (h : ¬(g = x ∧ f = y ∧ t = z)) :
    hasRecord (set_balance g f t v st) x y z = hasRecord st x y z := by
  unfold hasRecord set_balance
  have hfil : (st.filter
        (fun b => !(decide (b.groupId = g ∧ b.fromUserId = f ∧ b.toUserId = t)))).find?
      (fun b => decide (b.groupId = x ∧ b.fromUserId = y ∧ b.toUserId = z)) =
      st.find? (fun b => decide (b.groupId = x ∧ b.fromUserId = y ∧ b.toUserId = z)) := by
    apply find?_filter_eq_find?
    intro a ha
    simp only [decide_eq_true_eq] at ha
    simp only [Bool.not_eq_true', decide_eq_false_iff_not]
    rintro ⟨h1, h2, h3⟩
    exact h ⟨by rw [← h1, ha.1], by rw [← h2, ha.2.1], by rw [← h3, ha.2.2]⟩
  by_cases hv : 0 < v
  · simp only [if_pos hv, List.find?_append, hfil]
    have hrow : List.find?
        (fun b => decide (b.groupId = x ∧ b.fromUserId = y ∧ b.toUserId = z))
        [(⟨g, f, t, v⟩ : Balance)] = none := by
      simp only [List.find?_singleton]
      rw [if_neg]
      simp only [decide_eq_true_eq]
      exact h
    rw [hrow, Option.or_none]
  · simp only [if_neg hv, hfil]

theorem hasRecord_false_of_no_row {st : List Balance} {g f t : String}
    (h : ∀ r ∈ st, ¬(r.groupId = g ∧ r.fromUserId = f ∧ r.toUserId = t)) :
    hasRecord st g f t = false := by
  unfold hasRecord
  rw [List.find?_eq_none.mpr]
  · rfl
  · intro x hx
    simpa using h x hx

/-- C2: update_balance implements the netting algorithm of the
specification.  With reverse the stored opposite-direction balance:
if reverse exceeds delta the reverse balance shrinks by delta and the
forward direction is untouched; if 0 < reverse < delta the reverse row is
deleted and the forward balance is set to delta - reverse; if
reverse = delta the reverse row is deleted and no forward row is created;
if reverse is absent the forward balance is incremented by delta, the
row being created when absent. -/
theorem c2_update_balance_netting (g f t : String) (δ : ℚ) (store : List Balance)
    (hδ : 0 < δ) (hinv : BalInv store) :
    (δ < get_balance_between_users store g t f →
      get_balance_between_users (update_balance g f t δ store) g t f =
        get_balance_between_users store g t f - δ ∧
      get_balance_between_users (update_balance g f t δ store) g f t =
        get_balance_between_users store g f t) ∧
    (0 < get_balance_between_users store g t f →
      get_balance_between_users store g t f < δ →
      hasRecord (update_balance g f t δ store) g t f = false ∧
      get_balance_between_users (update_balance g f t δ store) g f t =
        δ - get_balance_between_users store g t f) ∧
    (get_balance_between_users store g t f = δ →
      hasRecord (update_balance g f t δ store) g t f = false ∧
      hasRecord (update_balance g f t δ store) g f t = false) ∧
    (get_balance_between_users store g t f = 0 →
      get_balance_between_users (update_balance g f t δ store) g f t =
        get_balance_between_users store g f t + δ ∧
      hasRecord (update_balance g f t δ store) g f t = true) := by
  refine ⟨?_, ?_, ?_, ?_⟩
  · intro hgt
    have h1 : 0 < get_balance_between_users store g t f := lt_trans hδ hgt
    obtain ⟨r, hrm, e1, e2, e3, _⟩ := get_pos_exists_row h1
    have htf : t ≠ f := by
      rw [← e2, ← e3]
      exact hinv.2.2.1 r hrm
    unfold update_balance
    rw [if_pos h1, if_pos hgt]
    constructor
    · rw [get_set_balance_same, if_pos (by linarith)]
    · rw [get_set_balance_other]
      rintro ⟨_, h2, _⟩
      exact htf h2
  · intro h1 hlt
    obtain ⟨r, hrm, e1, e2, e3, _⟩ := get_pos_exists_row h1
    have htf : t ≠ f := by
      rw [← e2, ← e3]
      exact hinv.2.2.1 r hrm
    unfold update_balance
    rw [if_pos h1, if_neg (by linarith), if_pos hlt]
    constructor
    · rw [hasRecord_set_balance_other (set_balance g t f 0 store)
        (δ - get_balance_between_users store g t f)
        (by rintro ⟨_, h2, _⟩; exact htf h2.symm)]
      rw [hasRecord_set_balance_same]
      simp
    · rw [get_set_balance_same, if_pos (by linarith)]
  · intro heq
    have h1 : 0 < get_balance_between_users store g t f := heq ▸ hδ
    obtain ⟨r, hrm, e1, e2, e3, _⟩ := get_pos_exists_row h1
    have htf : t ≠ f := by
      rw [← e2, ← e3]
      exact hinv.2.2.1 r hrm
    have hno_ft : ∀ r2 ∈ store, ¬(r2.groupId = g ∧ r2.fromUserId = f ∧ r2.toUserId = t) := by
      intro r2 hr2m hk
      exact hinv.2.2.2 r hrm r2 hr2m
        (by simp [keyOf, revKey, hk.1, hk.2.1, hk.2.2, e1, e2, e3])
    unfold update_balance
    rw [if_pos h1, if_neg (by linarith), if_neg (by linarith)]
    constructor
    · rw [hasRecord_set_balance_same]
      simp
    · rw [hasRecord_set_balance_other store (0:ℚ)
        (by rintro ⟨_, h2, _⟩; exact htf h2)]
      exact hasRecord_false_of_no_row hno_ft
  · intro heq
    unfold update_balance
    rw [heq, if_neg (by norm_num)]
    have hfwd : 0 ≤ get_balance_between_users store g f t := get_nonneg hinv.2.1 g f t
    constructor
    · rw [get_set_balance_same, if_pos (by linarith)]
    · rw [hasRecord_set_balance_same]
      simp only [decide_eq_true_eq]
      linarith

/-- C2 witness: a concrete store with reverse = 5 and delta = 3. -/
theorem c2_witness :
    (0:ℚ) < 3 ∧ BalInv [(⟨"g", "b", "a", 5⟩ : Balance)] ∧
    (get_balance_between_users
        (update_balance "g" "a" "b" 3 [⟨"g", "b", "a", 5⟩]) "g" "b" "a" =
      get_balance_between_users [(⟨"g", "b", "a", 5⟩ : Balance)] "g" "b" "a" - 3 ∧
     get_balance_between_users
        (update_balance "g" "a" "b" 3 [⟨"g", "b", "a", 5⟩]) "g" "a" "b" =
      get_balance_between_users [(⟨"g", "b", "a", 5⟩ : Balance)] "g" "a" "b") := by
  have h5 : get_balance_between_users [(⟨"g", "b", "a", 5⟩ : Balance)] "g" "b" "a" = 5 := by
    norm_num +decide [get_balance_between_users, List.find?]
  refine ⟨by norm_num, by decide, ?_⟩
  exact (c2_update_balance_netting "g" "a" "b" 3 [⟨"g", "b", "a", 5⟩] (by norm_num)
    (by decide)).1 (by rw [h5]; norm_num)

/-! ### C5: settlement validation happens before any write -/

/-- C5: every validation failure of record_settlement (group not found,
non-member, non-positive amount, payer not in debt, recipient not owed,
settlement exceeds balance) returns the input state unchanged, i.e. occurs
before any write; and when the earlier checks pass, an amount exceeding
min(abs net(from), abs net(to)) + 0.01 fails with
settlementExceedsBalance and leaves the state unchanged. -/
theorem c5_settlement_validation_before_write :
    (∀ (env : GroupStore) (d : SettlementData) (s : State) (e : SettlementError),
      (record_settlement env d s).2 = Except.error e → (record_settlement env d s).1 = s) ∧
    (∀ (env : GroupStore) (d : SettlementData) (s : State) (grp : Group),
      getGroup env d.groupId = some grp →
      d.fromUserId ∈ grp.members → d.toUserId ∈ grp.members → 0 < d.amount →
      netOf (get_group_balances s.balances d.groupId) d.fromUserId < 0 →
      0 < netOf (get_group_balances s.balances d.groupId) d.toUserId →
      min |netOf (get_group_balances s.balances d.groupId) d.fromUserId|
          |netOf (get_group_balances s.balances d.groupId) d.toUserId| + 1/100 < d.amount →
      record_settlement env d s = (s, Except.error SettlementError.settlementExceedsBalance)) := by
  constructor
  · intro env d s e h
    unfold record_settlement at h ⊢
    rcases hg : getGroup env d.groupId with _ | grp
    · simp only [hg]
    · simp only [hg] at h ⊢
      by_cases h1 : ¬(d.fromUserId ∈ grp.members ∧ d.toUserId ∈ grp.members)
      · rw [if_pos h1]
      · rw [if_neg h1]
        by_cases h2 : d.amount ≤ 0
        · rw [if_pos h2]
        · rw [if_neg h2]
          by_cases h3 : 0 ≤ netOf (get_group_balances s.balances d.groupId) d.fromUserId
          · rw [if_pos h3]
          · rw [if_neg h3]
            by_cases h4 : netOf (get_group_balances s.balances d.groupId) d.toUserId ≤ 0
            · rw [if_pos h4]
            · rw [if_neg h4]
              by_cases h5 : min |netOf (get_group_balances s.balances d.groupId) d.fromUserId|
                  |netOf (get_group_balances s.balances d.groupId) d.toUserId| + 1/100 < d.amount
              · rw [if_pos h5]
              · rw [if_neg h1, if_neg h2, if_neg h3, if_neg h4, if_neg h5] at h
                exact absurd h (by simp)
  · intro env d s grp hg hfm htm hamt hfn htn hexc
    unfold record_settlement
    simp only [hg]
    rw [if_neg (by simp [hfm, htm])]
    rw [if_neg (by linarith)]
    rw [if_neg (by linarith)]
    rw [if_neg (by linarith)]
    rw [if_pos hexc]

/-- C5 witness: a concrete overshooting settlement is rejected with
settlementExceedsBalance and the state is unchanged. -/
theorem c5_witness :
    record_settlement [⟨"g", ["alice", "bob"]⟩] ⟨"s1", "g", "bob", "alice", 100⟩
        ⟨[⟨"g", "bob", "alice", 10⟩], [], []⟩ =
      (⟨[⟨"g", "bob", "alice", 10⟩], [], []⟩,
        Except.error SettlementError.settlementExceedsBalance) := by
  have hg : getGroup [⟨"g", ["alice", "bob"]⟩] "g" = some ⟨"g", ["alice", "bob"]⟩ := by
    norm_num +decide [getGroup, List.find?]
  have hbal : get_group_balances
      (⟨[⟨"g", "bob", "alice", 10⟩], [], []⟩ : State).balances "g" =
      [⟨"g", "bob", "alice", 10⟩] := by
    norm_num +decide [get_group_balances, map_row_to_balance, round2, roundHalfEven,
      Int.fract, round_eq, List.filter]
  have hfn : netOf (get_group_balances
      (⟨[⟨"g", "bob", "alice", 10⟩], [], []⟩ : State).balances "g") "bob" = -10 := by
    rw [hbal]
    norm_num +decide [netOf, List.foldl]
  have htn : netOf (get_group_balances
      (⟨[⟨"g", "bob", "alice", 10⟩], [], []⟩ : State).balances "g") "alice" = 10 := by
    rw [hbal]
    norm_num +decide [netOf, List.foldl]
  have h := c5_settlement_validation_before_write.2 [⟨"g", ["alice", "bob"]⟩]
    ⟨"s1", "g", "bob", "alice", 100⟩ ⟨[⟨"g", "bob", "alice", 10⟩], [], []⟩
    ⟨"g", ["alice", "bob"]⟩ hg (by norm_num +decide) (by norm_num +decide) (by norm_num)
    (by rw [hfn]; norm_num) (by rw [htn]; norm_num)
    (by rw [hfn, htn]; norm_num)
  exact h

/-! ### C8: EXACT split validation and calculation -/

theorem exactSumMismatch_not_mem_splitErrors (ty : SplitType) (splits : List Split) :
    ExpenseError.exactSumMismatch ∉ splitErrors ty splits := by
  unfold splitErrors
  intro hmem
  rw [List.mem_flatten] at hmem
  obtain ⟨l, hl, hmem⟩ := hmem
  rw [List.mem_map] at hl
  obtain ⟨p, _, rfl⟩ := hl
  rcases List.mem_append.mp hmem with h | h <;> split_ifs at h <;> simp at h

/-- C8 counterexample: a one-participant EXACT expense with supplied
amount 9.99 against total 10 passes validation (the difference is exactly
the 0.01 tolerance) yet the calculated split amounts sum to 9.99, not to
the total amount, so EXACT output is not exact by construction. -/
theorem c8_counterexample :
    ¬ (∀ (total : ℚ) (splits : List Split),
        validate_expense total SplitType.EXACT splits = [] →
        ((calculate_splits total SplitType.EXACT splits).map (fun cs => cs.amount)).sum =
          total) := by
  intro hall
  have hval : validate_expense 10 SplitType.EXACT [⟨"a", 999/100, 0⟩] = [] := by
    unfold validate_expense splitErrors
    rw [if_neg (by norm_num : ¬ ((10:ℚ) ≤ 0))]
    rw [if_neg (by simp : ¬ ([(⟨"a", 999/100, 0⟩ : Split)] = []))]
    rw [if_neg ?hc3, if_neg ?hc4]
    case hc3 =>
      rintro ⟨_, hc⟩
      rw [show (([(⟨"a", 999/100, 0⟩ : Split)].map (fun s => s.amount)).sum) - 10 = -(1/100) by
        simp only [List.map_cons, List.map_nil, List.sum_cons, List.sum_nil]
        norm_num] at hc
      rw [abs_neg, abs_of_nonneg (by norm_num : (0:ℚ) ≤ 1/100)] at hc
      exact absurd hc (by norm_num)
    case hc4 =>
      rintro ⟨hty, _⟩
      exact SplitType.noConfusion hty
    simp [List.enum]
    norm_num
  have h := hall 10 [⟨"a", 999/100, 0⟩] hval
  rw [show calculate_splits 10 SplitType.EXACT [⟨"a", 999/100, 0⟩] =
      [⟨"a", 999/100⟩] from rfl] at h
  simp only [List.map_cons, List.map_nil, List.sum_cons, List.sum_nil] at h
  norm_num at h

/-- C8 amended: validation reports SplitSumMismatch for an EXACT split
exactly when the supplied amounts differ from the total by more than 0.01;
for every EXACT split that passes validation, calculate_splits returns the
supplied amounts unchanged, and their sum equals totalAmount only within
the 0.01 tolerance (not exactly). -/
theorem c8_exact_split_behaviour :
    (∀ (total : ℚ) (splits : List Split),
      (ExpenseError.exactSumMismatch ∈ validate_expense total SplitType.EXACT splits ↔
        1/100 < |((splits.map (fun s => s.amount)).sum) - total|)) ∧
    (∀ (total : ℚ) (splits : List Split),
      validate_expense total SplitType.EXACT splits = [] →
      calculate_splits total SplitType.EXACT splits =
        splits.map (fun s => ⟨s.userId, s.amount⟩) ∧
      |((calculate_splits total SplitType.EXACT splits).map (fun cs => cs.amount)).sum -
        total| ≤ 1/100) := by
  have hmem : ∀ (total : ℚ) (splits : List Split),
      (ExpenseError.exactSumMismatch ∈ validate_expense total SplitType.EXACT splits ↔
        1/100 < |((splits.map (fun s => s.amount)).sum) - total|) := by
    intro total splits
    unfold validate_expense
    constructor
    · intro hmem
      rcases List.mem_append.mp hmem with h | h
      rcases List.mem_append.mp h with h | h
      rcases List.mem_append.mp h with h | h
      rcases List.mem_append.mp h with h | h
      · split_ifs at h <;> simp at h
      · split_ifs at h <;> simp at h
      · by_cases hc : 1/100 < |((splits.map (fun s => s.amount)).sum) - total|
        · exact hc
        · rw [if_neg (by rintro ⟨_, hcon⟩; exact hc hcon)] at h
          exact absurd h (List.not_mem_nil _)
      · split_ifs at h <;> simp at h
      · exact absurd h (exactSumMismatch_not_mem_splitErrors _ _)
    · intro hc
      apply List.mem_append_left
      apply List.mem_append_left
      apply List.mem_append_right
      rw [if_pos ⟨rfl, hc⟩]
      exact List.mem_singleton.mpr rfl
  refine ⟨hmem, ?_⟩
  intro total splits hval
  refine ⟨rfl, ?_⟩
  have hnotmem : ExpenseError.exactSumMismatch ∉ validate_expense total SplitType.EXACT splits := by
    rw [hval]
    exact List.not_mem_nil _
  have hle : ¬ (1/100 < |((splits.map (fun s => s.amount)).sum) - total|) :=
    fun hc => hnotmem ((hmem total splits).mpr hc)
  have heq : ((calculate_splits total SplitType.EXACT splits).map (fun cs => cs.amount)).sum =
      (splits.map (fun s => s.amount)).sum := by
    unfold calculate_splits
    rw [List.map_map]
    rfl
  rw [heq]
  linarith [not_lt.mp hle]

/-- C8 witness: the amended theorem applied to a concrete passing EXACT
split (amounts 6 and 4 against total 10). -/
theorem c8_witness :
    validate_expense 10 SplitType.EXACT [⟨"a", 6, 0⟩, ⟨"b", 4, 0⟩] = [] ∧
    calculate_splits 10 SplitType.EXACT [⟨"a", 6, 0⟩, ⟨"b", 4, 0⟩] = [⟨"a", 6⟩, ⟨"b", 4⟩] ∧
    |((calculate_splits 10 SplitType.EXACT [⟨"a", 6, 0⟩, ⟨"b", 4, 0⟩]).map
        (fun cs => cs.amount)).sum - 10| ≤ 1/100 := by
  have hval : validate_expense 10 SplitType.EXACT [⟨"a", 6, 0⟩, ⟨"b", 4, 0⟩] = [] := by
    unfold validate_expense splitErrors
    rw [if_neg (by norm_num : ¬ ((10:ℚ) ≤ 0))]
    rw [if_neg (by simp : ¬ ([(⟨"a", 6, 0⟩ : Split), ⟨"b", 4, 0⟩] = []))]
    rw [if_neg ?hc3, if_neg ?hc4]
    case hc3 =>
      rintro ⟨_, hc⟩
      rw [show (([(⟨"a", 6, 0⟩ : Split), ⟨"b", 4, 0⟩].map (fun s => s.amount)).sum) - 10 = 0 by
        simp only [List.map_cons, List.map_nil, List.sum_cons, List.sum_nil]
        norm_num] at hc
      rw [abs_zero] at hc
      exact absurd hc (by norm_num)
    case hc4 =>
      rintro ⟨hty, _⟩
      exact SplitType.noConfusion hty
    simp [List.enum]
  have h := c8_exact_split_behaviour.2 10 [⟨"a", 6, 0⟩, ⟨"b", 4, 0⟩] hval
  exact ⟨hval, h.1, h.2⟩

/-! ### C9: rounding bound for EQUAL and PERCENTAGE splits -/

theorem sum_map_const_rat {α : Type} (l : List α) (c : ℚ) :
    (l.map (fun _ => c)).sum = l.length * c := by
  induction l with
  | nil => simp
  | cons a as ih =>
    simp only [List.map_cons, List.sum_cons, List.length_cons, ih]
    push_cast
    ring

theorem abs_sum_round2_sub {α : Type} (l : List α) (g : α → ℚ) :
    |((l.map (fun a => round2 (g a))).sum) - ((l.map g).sum)| ≤ l.length * (1/200) := by
  induction l with
  | nil => simp
  | cons a as ih =>
    simp only [List.map_cons, List.sum_cons, List.length_cons]
    have h1 : |round2 (g a) - g a| ≤ 1/200 := by
      rw [abs_sub_comm]
      exact abs_sub_round2 (g a)
    have h2 : round2 (g a) + (as.map (fun a => round2 (g a))).sum - (g a + (as.map g).sum) =
        (round2 (g a) - g a) + ((as.map (fun a => round2 (g a))).sum - (as.map g).sum) := by
      ring
    rw [h2]
    have h3 := abs_add (round2 (g a) - g a)
      ((as.map (fun a => round2 (g a))).sum - (as.map g).sum)
    push_cast
    have := le_trans h3 (by linarith : |round2 (g a) - g a| +
      |(as.map (fun a => round2 (g a))).sum - (as.map g).sum| ≤
        1/200 + as.length * (1/200))
    linarith

theorem sum_map_pct (splits : List Split) (total : ℚ) :
    (splits.map (fun s => s.percentage / 100 * total)).sum =
      ((splits.map (fun s => s.percentage)).sum) / 100 * total := by
  induction splits with
  | nil => simp
  | cons a as ih =>
    simp only [List.map_cons, List.sum_cons, ih]
    ring

/-- C9 counterexample: a one-participant PERCENTAGE split of 100.01
percent over total 1000000 passes the 0.01 percentage tolerance, yet the
computed share is 1000100, so the difference from the total is 100,
far above 0.01 times the participant count. -/
theorem c9_counterexample :
    ¬ (∀ (total : ℚ) (splits : List Split),
        splits ≠ [] →
        |((splits.map (fun s => s.percentage)).sum) - 100| ≤ 1/100 →
        |total - ((calculate_splits total SplitType.PERCENTAGE splits).map
            (fun cs => cs.amount)).sum| ≤ (1/100) * splits.length) := by
  intro hall
  have htol : |(([(⟨"a", 0, 10001/100⟩ : Split)].map (fun s => s.percentage)).sum) - 100| ≤
      1/100 := by
    simp only [List.map_cons, List.map_nil, List.sum_cons, List.sum_nil]
    rw [show ((10001:ℚ)/100 + 0) - 100 = 1/100 by norm_num]
    rw [abs_of_nonneg (by norm_num : (0:ℚ) ≤ 1/100)]
  have h := hall 1000000 [⟨"a", 0, 10001/100⟩] (by simp) htol
  have hr : round2 ((10001:ℚ)/100 / 100 * 1000000) = 1000100 := by
    norm_num [round2, roundHalfEven, Int.fract, round_eq]
  rw [show ((calculate_splits 1000000 SplitType.PERCENTAGE
      [⟨"a", 0, 10001/100⟩]).map (fun cs => cs.amount)).sum =
      round2 ((10001:ℚ)/100 / 100 * 1000000) + 0 from rfl] at h
  rw [hr] at h
  rw [show (1000000:ℚ) - (1000100 + 0) = -100 by norm_num] at h
  rw [abs_neg, abs_of_nonneg (by norm_num : (0:ℚ) ≤ 100)] at h
  simp only [List.length_cons, List.length_nil] at h
  norm_num at h

/-- C9 amended: for every EQUAL split with at least one participant, and
for every PERCENTAGE split whose percentages sum to exactly 100, the
computed shares satisfy the bound
abs (totalAmount - sum of computed shares) less-or-equal 0.01 times the
participant count.  (With only the 0.01 tolerance on the percentage sum
the bound fails for large totals, as the counterexample shows.) -/
theorem c9_rounding_bound :
    (∀ (total : ℚ) (splits : List Split), splits ≠ [] →
      |total - ((calculate_splits total SplitType.EQUAL splits).map
          (fun cs => cs.amount)).sum| ≤ (1/100) * splits.length) ∧
    (∀ (total : ℚ) (splits : List Split),
      ((splits.map (fun s => s.percentage)).sum) = 100 →
      |total - ((calculate_splits total SplitType.PERCENTAGE splits).map
          (fun cs => cs.amount)).sum| ≤ (1/100) * splits.length) := by
  constructor
  · intro total splits hne
    have hn : 0 < splits.length := List.length_pos.mpr hne
    have hnq : (0:ℚ) < splits.length := by exact_mod_cast hn
    have heq : ((calculate_splits total SplitType.EQUAL splits).map
        (fun cs => cs.amount)).sum = splits.length * round2 (total / splits.length) := by
      unfold calculate_splits
      rw [List.map_map]
      exact sum_map_const_rat splits (round2 (total / splits.length))
    rw [heq]
    have hround := abs_sub_round2 (total / splits.length)
    have hsplit : total - splits.length * round2 (total / splits.length) =
        splits.length * (total / splits.length - round2 (total / splits.length)) := by
      field_simp
    rw [hsplit, abs_mul, abs_of_nonneg (le_of_lt hnq)]
    calc (splits.length : ℚ) * |total / splits.length - round2 (total / splits.length)|
        ≤ splits.length * (1/200) :=
          mul_le_mul_of_nonneg_left hround (le_of_lt hnq)
      _ ≤ (1/100) * splits.length := by
          rw [mul_comm]
          exact mul_le_mul_of_nonneg_right (by norm_num) (le_of_lt hnq)
  · intro total splits hsum
    have heq : ((calculate_splits total SplitType.PERCENTAGE splits).map
        (fun cs => cs.amount)).sum =
        (splits.map (fun s => round2 (s.percentage / 100 * total))).sum := by
      unfold calculate_splits
      rw [List.map_map]
      rfl
    have hexact : (splits.map (fun s => s.percentage / 100 * total)).sum = total := by
      rw [sum_map_pct, hsum]
      norm_num
    have hbound := abs_sum_round2_sub splits (fun s => s.percentage / 100 * total)
    rw [hexact] at hbound
    rw [heq, abs_sub_comm]
    have hlen : (0:ℚ) ≤ splits.length := by positivity
    calc |(splits.map (fun s => round2 (s.percentage / 100 * total))).sum - total|
        ≤ splits.length * (1/200) := hbound
      _ ≤ (1/100) * splits.length := by
          rw [mul_comm]
          exact mul_le_mul_of_nonneg_right (by norm_num) hlen

/-- C9 witness: the amended bound applied to a concrete EQUAL split of 100
between two users and a concrete one-user 100 percent split. -/
theorem c9_witness :
    ([(⟨"a", 0, 0⟩ : Split), ⟨"b", 0, 0⟩] ≠ []) ∧
    |100 - ((calculate_splits 100 SplitType.EQUAL [⟨"a", 0, 0⟩, ⟨"b", 0, 0⟩]).map
        (fun cs => cs.amount)).sum| ≤
      (1/100) * ([(⟨"a", 0, 0⟩ : Split), ⟨"b", 0, 0⟩] : List Split).length ∧
    (([(⟨"a", 0, (100:ℚ)⟩ : Split)].map (fun s => s.percentage)).sum = 100 ∧
    |10 - ((calculate_splits 10 SplitType.PERCENTAGE [⟨"a", 0, 100⟩]).map
        (fun cs => cs.amount)).sum| ≤
      (1/100) * ([(⟨"a", 0, (100:ℚ)⟩ : Split)] : List Split).length) := by
  have hsum : (([(⟨"a", 0, (100:ℚ)⟩ : Split)].map (fun s => s.percentage)).sum) = 100 := by
    simp
  refine ⟨by simp, ?_, hsum, ?_⟩
  · exact c9_rounding_bound.1 100 [⟨"a", 0, 0⟩, ⟨"b", 0, 0⟩] (by simp)
  · exact c9_rounding_bound.2 10 [⟨"a", 0, 100⟩] hsum

/-! ### C6: the two-member expense and settlement scenario -/

/-- C6: in group {alice, bob}, one expense of 100 split EQUAL with alice
as payer yields balance(bob to alice) = 50; bob then settles 50 to alice:
the settlement is accepted (result ok with remaining net 0), afterwards no
directed balance row remains and both net positions are 0. -/
theorem c6_two_member_scenario :
    add_expense [⟨"g", ["alice", "bob"]⟩]
        ⟨"e1", "g", "dinner", 100, "alice", SplitType.EQUAL, [⟨"alice", 0, 0⟩, ⟨"bob", 0, 0⟩]⟩
        initState =
      Except.ok ⟨[⟨"g", "bob", "alice", 50⟩],
        [⟨"e1", "g", "dinner", 100, "alice", SplitType.EQUAL,
          [⟨"alice", 50, 0⟩, ⟨"bob", 50, 0⟩]⟩], []⟩ ∧
    get_balance_between_users [(⟨"g", "bob", "alice", 50⟩ : Balance)] "g" "bob" "alice" = 50 ∧
    record_settlement [⟨"g", ["alice", "bob"]⟩] ⟨"s1", "g", "bob", "alice", 50⟩
        ⟨[⟨"g", "bob", "alice", 50⟩],
          [⟨"e1", "g", "dinner", 100, "alice", SplitType.EQUAL,
            [⟨"alice", 50, 0⟩, ⟨"bob", 50, 0⟩]⟩], []⟩ =
      (⟨[], [⟨"e1", "g", "dinner", 100, "alice", SplitType.EQUAL,
          [⟨"alice", 50, 0⟩, ⟨"bob", 50, 0⟩]⟩],
        [⟨"s1", "g", "bob", "alice", 50⟩]⟩, Except.ok 0) ∧
    netValue ([] : List Balance) "bob" = 0 ∧ netValue ([] : List Balance) "alice" = 0 := by
  have habs1 : |(-50:ℚ)| = 50 := by
    rw [abs_of_nonpos (by norm_num)]
    norm_num
  have habs2 : |(50:ℚ)| = 50 := abs_of_nonneg (by norm_num)
  refine ⟨?_, ?_, ?_, ?_, ?_⟩
  · norm_num +decide [add_expense, getGroup, initState, validate_expense, splitErrors,
      calculate_splits, update_balance, get_balance_between_users, set_balance,
      round2, roundHalfEven, Int.fract, round_eq, List.find?, List.filter, List.foldl,
      List.enum]
  · norm_num +decide [get_balance_between_users, List.find?]
  · norm_num +decide [record_settlement, getGroup, get_group_balances, map_row_to_balance,
      round2, roundHalfEven, Int.fract, round_eq, netOf, apply_smart_settlement, reduce_pass,
      set_balance, habs1, habs2, List.find?, List.filter, List.foldl, List.map, List.sum]
  · norm_num [netValue]
  · norm_num [netValue]

/-! ### C7: idempotence of recalculation -/

theorem filter_filter_eq {α : Type} (l : List α) (p q : α → Bool)
    (h : ∀ a, q a = true → p a = true) :
    (l.filter p).filter q = l.filter q := by
  induction l with
  | nil => rfl
  | cons a as ih =>
    simp only [List.filter_cons]
    by_cases hq : q a = true
    · have hp : p a = true := h a hq
      simp [hp, hq, List.filter_cons, ih]
    · by_cases hp : p a = true
      · simp [hp, hq, List.filter_cons, ih]
      · simp [hp, hq, ih]

theorem clear_set_balance (g f t : String) (v : ℚ) (st : List Balance) :
    clear_group_balances (set_balance g f t v st) g = clear_group_balances st g := by
  unfold clear_group_balances set_balance
  have hcompat : ∀ b : Balance, (!(decide (b.groupId = g))) = true →
      (!(decide (b.groupId = g ∧ b.fromUserId = f ∧ b.toUserId = t))) = true := by
    intro b hb
    simp only [Bool.not_eq_true', decide_eq_false_iff_not] at hb ⊢
    rintro ⟨h1, _, _⟩
    exact hb h1
  by_cases hv : 0 < v
  · rw [if_pos hv, List.filter_append]
    have hrow : ([(⟨g, f, t, v⟩ : Balance)]).filter (fun b => !(decide (b.groupId = g))) = [] := by
      simp
    rw [hrow, List.append_nil]
    exact filter_filter_eq st _ _ hcompat
  · rw [if_neg hv]
    exact filter_filter_eq st _ _ hcompat

theorem clear_clear (g : String) (st : List Balance) :
    clear_group_balances (clear_group_balances st g) g = clear_group_balances st g :=
  filter_filter_eq st _ _ (fun _ h => h)

theorem clear_update_balance (g f t : String) (δ : ℚ) (st : List Balance) :
    clear_group_balances (update_balance g f t δ st) g = clear_group_balances st g := by
  simp only [update_balance]
  split_ifs <;> simp only [clear_set_balance]

theorem clear_foldl_mem {α : Type} {f : List Balance → α → List Balance} {P : α → Prop}
    {g : String}
    (hf : ∀ st a, P a → clear_group_balances (f st a) g = clear_group_balances st g) :
    ∀ (l : List α), (∀ a ∈ l, P a) → ∀ st,
      clear_group_balances (l.foldl f st) g = clear_group_balances st g := by
  intro l
  induction l with
  | nil => intro _ st; rfl
  | cons a as ih =>
    intro hP st
    rw [List.foldl_cons, ih (fun x hx => hP x (List.mem_cons_of_mem a hx)),
      hf st a (hP a (List.mem_cons_self a as))]

theorem clear_replay_expense (g : String) (e : Expense) (st : List Balance) :
    clear_group_balances (replay_expense g e st) g = clear_group_balances st g := by
  unfold replay_expense
  refine clear_foldl_mem (P := fun _ => True) ?_ _ (fun _ _ => trivial) st
  intro st2 cs _
  by_cases hne : cs.userId ≠ e.paidBy
  · rw [if_pos hne]
    exact clear_update_balance _ _ _ _ _
  · rw [if_neg hne]

theorem clear_replay_settlement {g : String} {sm : Settlement} (hsm : sm.groupId = g)
    (st : List Balance) :
    clear_group_balances (replay_settlement st sm) g = clear_group_balances st g := by
  simp only [replay_settlement]
  split_ifs
  · rw [hsm]
    exact clear_update_balance _ _ _ _ _
  · rfl

/-- C7: applying recalculate twice in a row yields identical ledgers: a
second recalculation of the state produced by a first one returns exactly
that state again. -/
theorem c7_recalculate_idempotent (env : GroupStore) (g : String) (s s1 : State)
    (h : recalculate_group_balances env g s = Except.ok s1) :
    recalculate_group_balances env g s1 = Except.ok s1 := by
  unfold recalculate_group_balances at h ⊢
  rcases hg : getGroup env g with _ | grp
  · rw [hg] at h
    exact Except.noConfusion h
  · rw [hg] at h
    simp only [hg, Except.ok.injEq] at h ⊢
    subst h
    have hclear : clear_group_balances
        (((s.settlements.filter (fun sm => decide (sm.groupId = g))).foldl replay_settlement
          (((s.expenses.filter (fun e => decide (e.groupId = g))).reverse).foldl
            (fun st e => replay_expense g e st)
            (clear_group_balances s.balances g)))) g =
        clear_group_balances s.balances g := by
      rw [clear_foldl_mem (P := fun sm : Settlement => sm.groupId = g)
        (fun st sm hsm => clear_replay_settlement hsm st) _ ?_ ]
      · rw [clear_foldl_mem (P := fun _ : Expense => True)
          (fun st e _ => clear_replay_expense g e st) _ (fun _ _ => trivial)]
        exact clear_clear g s.balances
      · intro sm hsm
        simpa using (List.mem_filter.mp hsm).2
    simp only [State.mk.injEq, get_group_expenses]
    refine ⟨?_, trivial, trivial⟩
    rw [hclear]

/-- C7 witness: a concrete recalculation (one expense, one settlement in
the history) applied twice returns the same state both times. -/
theorem c7_witness :
    recalculate_group_balances [⟨"g", ["alice", "bob"]⟩] "g"
        ⟨[⟨"g", "bob", "alice", 17⟩],
          [⟨"e1", "g", "dinner", 100, "alice", SplitType.EQUAL,
            [⟨"alice", 50, 0⟩, ⟨"bob", 50, 0⟩]⟩],
          [⟨"s1", "g", "bob", "alice", 20⟩]⟩ =
      Except.ok ⟨[⟨"g", "bob", "alice", 30⟩],
        [⟨"e1", "g", "dinner", 100, "alice", SplitType.EQUAL,
          [⟨"alice", 50, 0⟩, ⟨"bob", 50, 0⟩]⟩],
        [⟨"s1", "g", "bob", "alice", 20⟩]⟩ ∧
    recalculate_group_balances [⟨"g", ["alice", "bob"]⟩] "g"
        ⟨[⟨"g", "bob", "alice", 30⟩],
          [⟨"e1", "g", "dinner", 100, "alice", SplitType.EQUAL,
            [⟨"alice", 50, 0⟩, ⟨"bob", 50, 0⟩]⟩],
          [⟨"s1", "g", "bob", "alice", 20⟩]⟩ =
      Except.ok ⟨[⟨"g", "bob", "alice", 30⟩],
        [⟨"e1", "g", "dinner", 100, "alice", SplitType.EQUAL,
          [⟨"alice", 50, 0⟩, ⟨"bob", 50, 0⟩]⟩],
        [⟨"s1", "g", "bob", "alice", 20⟩]⟩ := by
  have h1 : recalculate_group_balances [⟨"g", ["alice", "bob"]⟩] "g"
      ⟨[⟨"g", "bob", "alice", 17⟩],
        [⟨"e1", "g", "dinner", 100, "alice", SplitType.EQUAL,
          [⟨"alice", 50, 0⟩, ⟨"bob", 50, 0⟩]⟩],
        [⟨"s1", "g", "bob", "alice", 20⟩]⟩ =
      Except.ok ⟨[⟨"g", "bob", "alice", 30⟩],
        [⟨"e1", "g", "dinner", 100, "alice", SplitType.EQUAL,
          [⟨"alice", 50, 0⟩, ⟨"bob", 50, 0⟩]⟩],
        [⟨"s1", "g", "bob", "alice", 20⟩]⟩ := by
    norm_num +decide [recalculate_group_balances, getGroup, get_group_expenses,
      clear_group_balances, replay_expense, replay_settlement, calculate_splits,
      update_balance, get_balance_between_users, set_balance, round2, roundHalfEven,
      Int.fract, round_eq, List.find?, List.filter, List.foldl, List.reverse]
  exact ⟨h1, c7_recalculate_idempotent _ _ _ _ h1⟩

/-! ### C4: recalculation equals the specified clear-and-replay procedure -/

/-- The recalculation procedure exactly as the specification words it:
clear the group balances, replay every surviving expense in creation
order (recomputing its splits and calling the update engine once per
non-payer participant), then replay the group settlements as reversals. -/
def recalculateSpec (g : String) (s : State) : List Balance :=
  let b0 := clear_group_balances s.balances g
  let b1 := (s.expenses.filter (fun e => decide (e.groupId = g))).foldl
    (fun st e => replay_expense g e st) b0
  (s.settlements.filter (fun sm => decide (sm.groupId = g))).foldl replay_settlement b1

/-- The positive part of a rational. -/
def posPart (q : ℚ) : ℚ := if 0 < q then q else 0

/-- The signed pair balance of a directed pair in a store. -/
def sval (st : List Balance) (g x y : String) : ℚ :=
  get_balance_between_users st g x y - get_balance_between_users st g y x

/-- A replayed transfer: debtor, creditor, amount. -/
abbrev Transfer := String × String × ℚ

/-- Apply a list of transfers through the update engine. -/
def applyTransfers (g : String) (T : List Transfer) (st : List Balance) : List Balance :=
  T.foldl (fun st tr => update_balance g tr.1 tr.2.1 tr.2.2 st) st

/-- The transfers an expense replay issues: one per non-payer participant. -/
def transfersOfExpense (e : Expense) : List Transfer :=
  ((calculate_splits e.totalAmount e.splitType e.splits).filter
    (fun cs => decide (¬ cs.userId = e.paidBy))).map
    (fun cs => (cs.userId, e.paidBy, cs.amount))

/-- The signed contribution of one transfer to the pair (x, y). -/
def signedContrib (tr : Transfer) (x y : String) : ℚ :=
  (if x = tr.1 ∧ y = tr.2.1 then tr.2.2 else 0) -
  (if y = tr.1 ∧ x = tr.2.1 then tr.2.2 else 0)

/-- The total signed contribution of a transfer list to the pair (x, y). -/
def tsum (T : List Transfer) (x y : String) : ℚ :=
  (T.map (fun tr => signedContrib tr x y)).sum

theorem foldl_filter_ite {α β : Type} (p : α → Bool) (f : β → α → β) :
    ∀ (l : List α) (b : β),
    (l.filter p).foldl f b = l.foldl (fun st a => if p a then f st a else st) b := by
  intro l
  induction l with
  | nil => intro b; rfl
  | cons a as ih =>
    intro b
    simp only [List.filter_cons, List.foldl_cons]
    by_cases hp : p a = true
    · simp only [hp, if_true, List.foldl_cons]
      exact ih (f b a)
    · simp only [hp, if_false, Bool.false_eq_true]
      rw [ih b]

theorem replay_expense_eq_transfers (g : String) (e : Expense) (st : List Balance) :
    replay_expense g e st = applyTransfers g (transfersOfExpense e) st := by
  unfold replay_expense applyTransfers transfersOfExpense
  rw [List.foldl_map]
  rw [foldl_filter_ite]
  congr 1
  funext st2 cs
  by_cases h : cs.userId = e.paidBy
  · rw [if_neg (by simpa using h), if_neg (by simpa using h)]
  · rw [if_pos (by simpa using h), if_pos (by simpa using h)]

theorem applyTransfers_append (g : String) (T1 T2 : List Transfer) (st : List Balance) :
    applyTransfers g (T1 ++ T2) st = applyTransfers g T2 (applyTransfers g T1 st) := by
  unfold applyTransfers
  exact List.foldl_append _ _ T1 T2

theorem foldl_replay_eq_transfers (g : String) :
    ∀ (E : List Expense) (st : List Balance),
    E.foldl (fun st e => replay_expense g e st) st =
      applyTransfers g (E.flatMap transfersOfExpense) st := by
  intro E
  induction E with
  | nil => intro st; rfl
  | cons e es ih =>
    intro st
    rw [List.foldl_cons, List.flatMap_cons, applyTransfers_append,
      ← replay_expense_eq_transfers, ih]

theorem tsum_append (T1 T2 : List Transfer) (x y : String) :
    tsum (T1 ++ T2) x y = tsum T1 x y + tsum T2 x y := by
  unfold tsum
  rw [List.map_append, List.sum_append]

theorem tsum_flatMap_reverse (E : List Expense) (x y : String) :
    tsum (E.reverse.flatMap transfersOfExpense) x y =
      tsum (E.flatMap transfersOfExpense) x y := by
  have hgen : ∀ (l : List Expense), tsum (l.flatMap transfersOfExpense) x y =
      ((l.map (fun e => tsum (transfersOfExpense e) x y)).sum) := by
    intro l
    induction l with
    | nil => rfl
    | cons e es ih =>
      rw [List.flatMap_cons, tsum_append, List.map_cons, List.sum_cons, ih]
  rw [hgen, hgen, List.map_reverse, List.sum_reverse]

theorem sval_symm (st : List Balance) (g x y : String) : sval st g x y = -sval st g y x := by
  unfold sval
  ring

theorem get_eq_posPart_sval {st : List Balance} (hinv : BalInv st) (g x y : String) :
    get_balance_between_users st g x y = posPart (sval st g x y) := by
  unfold posPart sval
  by_cases h1 : 0 < get_balance_between_users st g x y
  · have hyx : get_balance_between_users st g y x = 0 := by
      have hmin := balInv_min_nonpos hinv g x y
      have hnn := get_nonneg hinv.2.1 g y x
      rcases le_total (get_balance_between_users st g x y) (get_balance_between_users st g y x)
        with hc | hc
      · rw [min_eq_left hc] at hmin
        linarith
      · rw [min_eq_right hc] at hmin
        linarith
    rw [hyx, sub_zero, if_pos h1]
  · have hx0 : get_balance_between_users st g x y = 0 :=
      le_antisymm (not_lt.mp h1) (get_nonneg hinv.2.1 g x y)
    have hy := get_nonneg hinv.2.1 g y x
    rw [hx0, if_neg (by linarith)]

theorem sval_update_pair {st : List Balance} (g a b : String) (δ : ℚ)
    (hinv : BalInv st) (hab : a ≠ b) (hδ : 0 ≤ δ) :
    sval (update_balance g a b δ st) g a b = sval st g a b + δ := by
  have hL := get_nonneg hinv.2.1 g a b
  have hR := get_nonneg hinv.2.1 g b a
  have hmin := balInv_min_nonpos hinv g a b
  unfold sval
  simp only [update_balance]
  split_ifs with h1 h2 h3
  · rw [get_set_balance_other st g b a g a b _ (by rintro ⟨_, h2x, _⟩; exact hab h2x.symm)]
    rw [get_set_balance_same, if_pos (by linarith)]
    ring
  · have hL0 : get_balance_between_users st g a b = 0 := by
      rcases le_total (get_balance_between_users st g a b) (get_balance_between_users st g b a)
        with hc | hc
      · rw [min_eq_left hc] at hmin
        linarith
      · rw [min_eq_right hc] at hmin
        linarith
    rw [get_set_balance_same, if_pos (by linarith)]
    rw [get_set_balance_other _ g a b g b a _ (by rintro ⟨_, h2x, _⟩; exact hab h2x)]
    rw [get_set_balance_same, if_neg (by norm_num)]
    rw [hL0]
    ring
  · have hRδ : get_balance_between_users st g b a = δ :=
      le_antisymm (not_lt.mp h2) (not_lt.mp h3)
    rw [get_set_balance_other st g b a g a b _ (by rintro ⟨_, h2x, _⟩; exact hab h2x.symm)]
    rw [get_set_balance_same, if_neg (by norm_num)]
    rw [hRδ]
    ring
  · have hR0 : get_balance_between_users st g b a = 0 := le_antisymm (not_lt.mp h1) hR
    rw [get_set_balance_same]
    rw [get_set_balance_other st g a b g b a _ (by rintro ⟨_, h2x, _⟩; exact hab h2x)]
    rw [hR0]
    by_cases hpos : 0 < get_balance_between_users st g a b + δ
    · rw [if_pos hpos]
      ring
    · rw [if_neg hpos]
      have h0 : get_balance_between_users st g a b + δ = 0 :=
        le_antisymm (not_lt.mp hpos) (by linarith)
      linarith

theorem sval_update_other {st : List Balance} (g a b : String) (δ : ℚ) (x y : String)
    (h1 : ¬(x = a ∧ y = b)) (h2 : ¬(x = b ∧ y = a)) :
    sval (update_balance g a b δ st) g x y = sval st g x y := by
  have hxyab : ¬(g = g ∧ a = x ∧ b = y) := by
    rintro ⟨_, ha, hb⟩
    exact h1 ⟨ha.symm, hb.symm⟩
  have hxyba : ¬(g = g ∧ b = x ∧ a = y) := by
    rintro ⟨_, hb, ha⟩
    exact h2 ⟨hb.symm, ha.symm⟩
  have hyxab : ¬(g = g ∧ a = y ∧ b = x) := by
    rintro ⟨_, ha, hb⟩
    exact h2 ⟨hb.symm, ha.symm⟩
  have hyxba : ¬(g = g ∧ b = y ∧ a = x) := by
    rintro ⟨_, hb, ha⟩
    exact h1 ⟨ha.symm, hb.symm⟩
  unfold sval
  simp only [update_balance]
  split_ifs with hh1 hh2 hh3
  · rw [get_set_balance_other st g b a g x y _ hxyba,
      get_set_balance_other st g b a g y x _ hyxba]
  · rw [get_set_balance_other _ g a b g x y _ hxyab,
      get_set_balance_other st g b a g x y _ hxyba,
      get_set_balance_other _ g a b g y x _ hyxab,
      get_set_balance_other st g b a g y x _ hyxba]
  · rw [get_set_balance_other st g b a g x y _ hxyba,
      get_set_balance_other st g b a g y x _ hyxba]
  · rw [get_set_balance_other st g a b g x y _ hxyab,
      get_set_balance_other st g a b g y x _ hyxab]

theorem sval_update {st : List Balance} (g a b : String) (δ : ℚ)
    (hinv : BalInv st) (hab : a ≠ b) (hδ : 0 ≤ δ) (x y : String) :
    sval (update_balance g a b δ st) g x y =
      sval st g x y + signedContrib (a, b, δ) x y := by
  by_cases hc1 : x = a ∧ y = b
  · obtain ⟨rfl, rfl⟩ := hc1
    rw [sval_update_pair g x y δ hinv hab hδ]
    congr 1
    unfold signedContrib
    rw [if_pos ⟨rfl, rfl⟩, if_neg (by rintro ⟨hyx, _⟩; exact hab hyx.symm)]
    ring
  · by_cases hc2 : x = b ∧ y = a
    · obtain ⟨rfl, rfl⟩ := hc2
      rw [sval_symm (update_balance g y x δ st) g x y,
        sval_update_pair g y x δ hinv hab hδ, sval_symm st g y x]
      unfold signedContrib
      rw [if_neg (by rintro ⟨hxy, _⟩; exact hab hxy.symm), if_pos ⟨rfl, rfl⟩]
      ring
    · rw [sval_update_other g a b δ x y hc1 hc2]
      unfold signedContrib
      rw [if_neg (by rintro ⟨hx, hy⟩; exact hc1 ⟨hx, hy⟩),
        if_neg (by rintro ⟨hy, hx⟩; exact hc2 ⟨hx, hy⟩)]
      ring

theorem get_update_other_group {st : List Balance} (g a b : String) (δ : ℚ)
    (x y z : String) (hx : x ≠ g) :
    get_balance_between_users (update_balance g a b δ st) x y z =
      get_balance_between_users st x y z := by
  have hkey : ∀ f2 t2 : String, ¬(g = x ∧ f2 = y ∧ t2 = z) := by
    rintro f2 t2 ⟨hgx, _, _⟩
    exact hx hgx.symm
  simp only [update_balance]
  split_ifs with h1 h2 h3
  · rw [get_set_balance_other st g b a x y z _ (hkey b a)]
  · rw [get_set_balance_other _ g a b x y z _ (hkey a b),
      get_set_balance_other st g b a x y z _ (hkey b a)]
  · rw [get_set_balance_other st g b a x y z _ (hkey b a)]
  · rw [get_set_balance_other st g a b x y z _ (hkey a b)]

theorem get_reverse_zero {st : List Balance} (hinv : BalInv st) {g x y : String}
    (h : 0 < get_balance_between_users st g x y) :
    get_balance_between_users st g y x = 0 := by
  have hmin := balInv_min_nonpos hinv g x y
  have hnn := get_nonneg hinv.2.1 g y x
  rcases le_total (get_balance_between_users st g x y) (get_balance_between_users st g y x)
    with hc | hc
  · rw [min_eq_left hc] at hmin
    linarith
  · rw [min_eq_right hc] at hmin
    linarith

theorem get_applyTransfers (g : String) :
    ∀ (T : List Transfer) (st : List Balance), BalInv st →
    (∀ tr ∈ T, tr.1 ≠ tr.2.1 ∧ 0 ≤ tr.2.2) →
    (∀ x y, get_balance_between_users (applyTransfers g T st) g x y =
      posPart (sval st g x y + tsum T x y)) ∧
    (∀ x y z, x ≠ g → get_balance_between_users (applyTransfers g T st) x y z =
      get_balance_between_users st x y z) := by
  intro T
  induction T with
  | nil =>
    intro st hinv _
    constructor
    · intro x y
      unfold tsum
      simp only [List.map_nil, List.sum_nil, add_zero]
      exact get_eq_posPart_sval hinv g x y
    · intro x y z _
      rfl
  | cons tr T2 ih =>
    intro st hinv hT
    obtain ⟨ta, tb, tv⟩ := tr
    have htr := hT (ta, tb, tv) (List.mem_cons_self _ T2)
    simp only at htr
    have hinv2 := @balInv_update_balance st g ta tb tv hinv htr.1
    have hih := ih (update_balance g ta tb tv st) hinv2
      (fun x hx => hT x (List.mem_cons_of_mem _ hx))
    constructor
    · intro x y
      rw [show applyTransfers g ((ta, tb, tv) :: T2) st =
        applyTransfers g T2 (update_balance g ta tb tv st) from rfl]
      rw [hih.1 x y]
      rw [sval_update g ta tb tv hinv htr.1 htr.2 x y]
      congr 1
      unfold tsum
      simp only [List.map_cons, List.sum_cons]
      ring
    · intro x y z hx
      rw [show applyTransfers g ((ta, tb, tv) :: T2) st =
        applyTransfers g T2 (update_balance g ta tb tv st) from rfl]
      rw [hih.2 x y z hx, get_update_other_group g ta tb tv x y z hx]

/-- Pointwise equality of balance stores: same stored amount at every
directed key.  This is the semantic content of a balances table; the
physical row order is not observable through lookups. -/
def EquivBal (st st2 : List Balance) : Prop :=
  ∀ x y z, get_balance_between_users st x y z = get_balance_between_users st2 x y z

theorem equivBal_set {st st2 : List Balance} (h : EquivBal st st2) (g f t : String) (v : ℚ) :
    EquivBal (set_balance g f t v st) (set_balance g f t v st2) := by
  intro x y z
  by_cases hk : g = x ∧ f = y ∧ t = z
  · obtain ⟨rfl, rfl, rfl⟩ := hk
    rw [get_set_balance_same, get_set_balance_same]
  · rw [get_set_balance_other st g f t x y z v hk, get_set_balance_other st2 g f t x y z v hk]
    exact h x y z

theorem equivBal_update {st st2 : List Balance} (h : EquivBal st st2) (g a b : String)
    (δ : ℚ) :
    EquivBal (update_balance g a b δ st) (update_balance g a b δ st2) := by
  intro x y z
  simp only [update_balance]
  rw [show get_balance_between_users st2 g b a = get_balance_between_users st g b a from
    (h g b a).symm]
  rw [show get_balance_between_users st2 g a b = get_balance_between_users st g a b from
    (h g a b).symm]
  split_ifs
  · exact equivBal_set h g b a _ x y z
  · exact equivBal_set (equivBal_set h g b a 0) g a b _ x y z
  · exact equivBal_set h g b a 0 x y z
  · exact equivBal_set h g a b _ x y z

theorem equivBal_replay_settlement {st st2 : List Balance} (h : EquivBal st st2)
    (sm : Settlement) :
    EquivBal (replay_settlement st sm) (replay_settlement st2 sm) := by
  intro x y z
  simp only [replay_settlement]
  rw [show get_balance_between_users st2 sm.groupId sm.fromUserId sm.toUserId =
    get_balance_between_users st sm.groupId sm.fromUserId sm.toUserId from (h _ _ _).symm]
  split_ifs
  · exact equivBal_update h sm.groupId sm.fromUserId sm.toUserId _ x y z
  · exact h x y z

theorem equivBal_foldl_settlements :
    ∀ (l : List Settlement) {st st2 : List Balance}, EquivBal st st2 →
    EquivBal (l.foldl replay_settlement st) (l.foldl replay_settlement st2) := by
  intro l
  induction l with
  | nil => intro st st2 h; exact h
  | cons sm l2 ih => intro st st2 h; exact ih (equivBal_replay_settlement h sm)

/-- C4: recalculate_group_balances clears the group's balances, replays
every surviving expense (recomputing its splits and calling the update
engine once per non-payer participant) and then replays every settlement
as a reversal.  Because expense replay is order-independent at the level
of stored pair balances, the resulting ledger coincides pointwise with
the creation-order procedure recalculateSpec, even though the source
enumerates the expenses most-recent-first; and a settlement replay
reduces an existing positive from-to balance by min(amount, current)
leaving all other keys unchanged, and is a no-op when no positive
from-to balance is stored. -/
theorem c4_recalculate_replays_history :
    (∀ (env : GroupStore) (g : String) (s : State) (grp : Group),
      getGroup env g = some grp → BalInv s.balances →
      (∀ e ∈ s.expenses, ∀ cs ∈ calculate_splits e.totalAmount e.splitType e.splits,
        0 ≤ cs.amount) →
      ∃ s1, recalculate_group_balances env g s = Except.ok s1 ∧
        s1.expenses = s.expenses ∧ s1.settlements = s.settlements ∧
        (∀ x y z, get_balance_between_users s1.balances x y z =
          get_balance_between_users (recalculateSpec g s) x y z)) ∧
    (∀ (st : List Balance) (sm : Settlement), BalInv st →
      (0 < get_balance_between_users st sm.groupId sm.fromUserId sm.toUserId →
        get_balance_between_users (replay_settlement st sm) sm.groupId sm.fromUserId
            sm.toUserId =
          get_balance_between_users st sm.groupId sm.fromUserId sm.toUserId -
            min sm.amount
              (get_balance_between_users st sm.groupId sm.fromUserId sm.toUserId) ∧
        (∀ x y z, ¬(x = sm.groupId ∧ y = sm.fromUserId ∧ z = sm.toUserId) →
          get_balance_between_users (replay_settlement st sm) x y z =
            get_balance_between_users st x y z)) ∧
      (get_balance_between_users st sm.groupId sm.fromUserId sm.toUserId ≤ 0 →
        replay_settlement st sm = st)) := by
  constructor
  · intro env g s grp hg hinv hsplits
    have hinv0 : BalInv (clear_group_balances s.balances g) := balInv_filter _ hinv
    have hTcond : ∀ (E2 : List Expense), (∀ e ∈ E2, e ∈ s.expenses) →
        ∀ tr ∈ E2.flatMap transfersOfExpense, tr.1 ≠ tr.2.1 ∧ 0 ≤ tr.2.2 := by
      intro E2 hE tr htr
      rw [List.mem_flatMap] at htr
      obtain ⟨e, he, htr⟩ := htr
      unfold transfersOfExpense at htr
      rw [List.mem_map] at htr
      obtain ⟨cs, hcs, rfl⟩ := htr
      obtain ⟨hcsm, hcsne⟩ := List.mem_filter.mp hcs
      exact ⟨by simpa using hcsne, hsplits e (hE e he) cs hcsm⟩
    have hmemrev : ∀ e ∈ get_group_expenses s g, e ∈ s.expenses := by
      intro e he
      unfold get_group_expenses at he
      rw [List.mem_reverse] at he
      exact (List.mem_filter.mp he).1
    have hmemfil : ∀ e ∈ s.expenses.filter (fun e => decide (e.groupId = g)),
        e ∈ s.expenses := fun e he => (List.mem_filter.mp he).1
    have hcode := get_applyTransfers g ((get_group_expenses s g).flatMap transfersOfExpense)
      (clear_group_balances s.balances g) hinv0 (hTcond _ hmemrev)
    have hspec := get_applyTransfers g
      ((s.expenses.filter (fun e => decide (e.groupId = g))).flatMap transfersOfExpense)
      (clear_group_balances s.balances g) hinv0 (hTcond _ hmemfil)
    have hequiv1 : EquivBal
        ((get_group_expenses s g).foldl (fun st e => replay_expense g e st)
          (clear_group_balances s.balances g))
        ((s.expenses.filter (fun e => decide (e.groupId = g))).foldl
          (fun st e => replay_expense g e st) (clear_group_balances s.balances g)) := by
      intro x y z
      rw [foldl_replay_eq_transfers, foldl_replay_eq_transfers]
      by_cases hxg : x = g
      · rw [hxg]
        rw [hcode.1 y z, hspec.1 y z,
          show get_group_expenses s g =
            (s.expenses.filter (fun e => decide (e.groupId = g))).reverse from rfl,
          tsum_flatMap_reverse]
      · rw [hcode.2 x y z hxg, hspec.2 x y z hxg]
    have hequiv2 := equivBal_foldl_settlements
      (s.settlements.filter (fun sm => decide (sm.groupId = g))) hequiv1
    unfold recalculate_group_balances
    simp only [hg]
    refine ⟨_, rfl, rfl, rfl, ?_⟩
    intro x y z
    exact hequiv2 x y z
  · intro st sm hinv
    constructor
    · intro hcur
      have hrev0 : get_balance_between_users st sm.groupId sm.toUserId sm.fromUserId = 0 :=
        get_reverse_zero hinv hcur
      simp only [replay_settlement]
      rw [if_pos hcur]
      simp only [update_balance]
      rw [hrev0, if_neg (lt_irrefl 0)]
      constructor
      · rw [get_set_balance_same]
        have hmin : min sm.amount
            (get_balance_between_users st sm.groupId sm.fromUserId sm.toUserId) ≤
            get_balance_between_users st sm.groupId sm.fromUserId sm.toUserId :=
          min_le_right _ _
        by_cases hp : 0 < get_balance_between_users st sm.groupId sm.fromUserId sm.toUserId +
            -(min sm.amount (get_balance_between_users st sm.groupId sm.fromUserId sm.toUserId))
        · rw [if_pos hp]
          ring
        · rw [if_neg hp]
          linarith
      · intro x y z hxyz
        rw [get_set_balance_other st sm.groupId sm.fromUserId sm.toUserId x y z _
          (by rintro ⟨h1, h2, h3⟩; exact hxyz ⟨h1.symm, h2.symm, h3.symm⟩)]
    · intro hc
      simp only [replay_settlement]
      rw [if_neg (by linarith)]

/-- C4 witness: the recalculation equality applied at a concrete state
with one expense, and the settlement-reversal description applied at a
concrete stored balance, all hypotheses discharged. -/
theorem c4_witness :
    (∃ s1, recalculate_group_balances [⟨"g", ["alice", "bob"]⟩] "g"
        ⟨[], [⟨"e1", "g", "dinner", 100, "alice", SplitType.EQUAL,
          [⟨"alice", 50, 0⟩, ⟨"bob", 50, 0⟩]⟩], []⟩ = Except.ok s1 ∧
      s1.expenses = (⟨[], [⟨"e1", "g", "dinner", 100, "alice", SplitType.EQUAL,
          [⟨"alice", 50, 0⟩, ⟨"bob", 50, 0⟩]⟩], []⟩ : State).expenses ∧
      s1.settlements = (⟨[], [⟨"e1", "g", "dinner", 100, "alice", SplitType.EQUAL,
          [⟨"alice", 50, 0⟩, ⟨"bob", 50, 0⟩]⟩], []⟩ : State).settlements ∧
      (∀ x y z, get_balance_between_users s1.balances x y z =
        get_balance_between_users (recalculateSpec "g"
          ⟨[], [⟨"e1", "g", "dinner", 100, "alice", SplitType.EQUAL,
            [⟨"alice", 50, 0⟩, ⟨"bob", 50, 0⟩]⟩], []⟩) x y z)) ∧
    get_balance_between_users
        (replay_settlement [(⟨"g", "bob", "alice", 30⟩ : Balance)]
          ⟨"s1", "g", "bob", "alice", 20⟩) "g" "bob" "alice" =
      get_balance_between_users [(⟨"g", "bob", "alice", 30⟩ : Balance)] "g" "bob" "alice" -
        min 20 (get_balance_between_users [(⟨"g", "bob", "alice", 30⟩ : Balance)]
          "g" "bob" "alice") := by
  have hg : getGroup [⟨"g", ["alice", "bob"]⟩] "g" = some ⟨"g", ["alice", "bob"]⟩ := by
    norm_num +decide [getGroup, List.find?]
  have hcalc : calculate_splits 100 SplitType.EQUAL [⟨"alice", 50, 0⟩, ⟨"bob", 50, 0⟩] =
      [⟨"alice", 50⟩, ⟨"bob", 50⟩] := by
    norm_num +decide [calculate_splits, round2, roundHalfEven, Int.fract, round_eq]
  have hsplits : ∀ e ∈ (⟨[], [⟨"e1", "g", "dinner", 100, "alice", SplitType.EQUAL,
      [⟨"alice", 50, 0⟩, ⟨"bob", 50, 0⟩]⟩], []⟩ : State).expenses,
      ∀ cs ∈ calculate_splits e.totalAmount e.splitType e.splits, 0 ≤ cs.amount := by
    intro e he cs hcs
    simp only [List.mem_singleton] at he
    subst he
    rw [show calculate_splits (⟨"e1", "g", "dinner", 100, "alice", SplitType.EQUAL,
      [⟨"alice", 50, 0⟩, ⟨"bob", 50, 0⟩]⟩ : Expense).totalAmount
        (⟨"e1", "g", "dinner", 100, "alice", SplitType.EQUAL,
          [⟨"alice", 50, 0⟩, ⟨"bob", 50, 0⟩]⟩ : Expense).splitType
        (⟨"e1", "g", "dinner", 100, "alice", SplitType.EQUAL,
          [⟨"alice", 50, 0⟩, ⟨"bob", 50, 0⟩]⟩ : Expense).splits =
      [⟨"alice", 50⟩, ⟨"bob", 50⟩] from hcalc] at hcs
    rcases List.mem_cons.mp hcs with rfl | hcs2
    · norm_num
    · rcases List.mem_cons.mp hcs2 with rfl | hcs3
      · norm_num
      · exact absurd hcs3 (List.not_mem_nil cs)
  have hget30 : get_balance_between_users [(⟨"g", "bob", "alice", 30⟩ : Balance)]
      "g" "bob" "alice" = 30 := by
    norm_num +decide [get_balance_between_users, List.find?]
  refine ⟨?_, ?_⟩
  · exact c4_recalculate_replays_history.1 [⟨"g", ["alice", "bob"]⟩] "g"
      ⟨[], [⟨"e1", "g", "dinner", 100, "alice", SplitType.EQUAL,
        [⟨"alice", 50, 0⟩, ⟨"bob", 50, 0⟩]⟩], []⟩ ⟨"g", ["alice", "bob"]⟩ hg
      (by decide) hsplits
  · exact ((c4_recalculate_replays_history.2 [(⟨"g", "bob", "alice", 30⟩ : Balance)]
      ⟨"s1", "g", "bob", "alice", 20⟩ (by decide)).1 (by rw [hget30]; norm_num)).1

/-! ### C3: the debt simplifier and net positions -/

/-- C3 counterexample: with a single stored balance of 0.01 the net dict
values sit exactly at the 0.01 thresholds, both partitions are empty and
the simplifier returns no transactions, so the creditor's net position
0.01 is not preserved. -/
theorem c3_counterexample :
    ¬ (∀ (store : List Balance) (g u : String),
        netValue (get_simplified_balances store g) u =
          netValue (get_group_balances store g) u) := by
  intro hall
  have h := hall [⟨"g", "a", "b", 1/100⟩] "g" "b"
  have hgb : get_group_balances [(⟨"g", "a", "b", 1/100⟩ : Balance)] "g" =
      [⟨"g", "a", "b", 1/100⟩] := by
    norm_num +decide [get_group_balances, map_row_to_balance, round2, roundHalfEven,
      Int.fract, round_eq, List.filter]
  have hsimp : get_simplified_balances [(⟨"g", "a", "b", 1/100⟩ : Balance)] "g" = [] := by
    unfold get_simplified_balances
    rw [hgb]
    norm_num +decide [buildNet, dictAdd, List.filter, List.map, List.any,
      List.mergeSort_nil, simplifyLoop]
  rw [hsimp, hgb] at h
  norm_num +decide [netValue, List.filter_cons, List.filter_nil] at h

theorem cents_zero : Cents 0 := ⟨0, by norm_num⟩

theorem cents_add {a b : ℚ} (ha : Cents a) (hb : Cents b) : Cents (a + b) := by
  obtain ⟨m, rfl⟩ := ha
  obtain ⟨n, rfl⟩ := hb
  exact ⟨m + n, by push_cast; ring⟩

theorem cents_neg {a : ℚ} (ha : Cents a) : Cents (-a) := by
  obtain ⟨m, rfl⟩ := ha
  exact ⟨-m, by push_cast; ring⟩

theorem cents_sub {a b : ℚ} (ha : Cents a) (hb : Cents b) : Cents (a - b) := by
  rw [sub_eq_add_neg]
  exact cents_add ha (cents_neg hb)

theorem cents_min {a b : ℚ} (ha : Cents a) (hb : Cents b) : Cents (min a b) := by
  rcases le_total a b with h | h
  · rw [min_eq_left h]
    exact ha
  · rw [min_eq_right h]
    exact hb

theorem cents_eq_zero_of_lt_hundredth {q : ℚ} (hc : Cents q) (h0 : 0 ≤ q)
    (h1 : q < 1/100) : q = 0 := by
  obtain ⟨n, rfl⟩ := hc
  have hn0 : (0:ℚ) ≤ (n:ℚ) := by nlinarith
  have hn1 : (n:ℚ) < 1 := by nlinarith
  have h0i : (0:ℤ) ≤ n := by exact_mod_cast hn0
  have h1i : n < 1 := by exact_mod_cast hn1
  have : n = 0 := by omega
  rw [this]
  norm_num

theorem netValue_nil (u : String) : netValue [] u = 0 := by
  simp [netValue]

theorem netValue_cons (b : Balance) (l : List Balance) (u : String) :
    netValue (b :: l) u =
      (if b.toUserId = u then b.amount else 0) -
      (if b.fromUserId = u then b.amount else 0) + netValue l u := by
  unfold netValue
  by_cases ht : b.toUserId = u <;> by_cases hf : b.fromUserId = u <;>
    simp [List.filter_cons, ht, hf] <;> ring

theorem netValue_cents {l : List Balance} (h : ∀ b ∈ l, Cents b.amount) (u : String) :
    Cents (netValue l u) := by
  induction l with
  | nil => rw [netValue_nil]; exact cents_zero
  | cons b l2 ih =>
    rw [netValue_cons]
    refine cents_add (cents_sub ?_ ?_) (ih (fun x hx => h x (List.mem_cons_of_mem b hx)))
    · by_cases ht : b.toUserId = u
      · rw [if_pos ht]
        exact h b (List.mem_cons_self b l2)
      · rw [if_neg ht]
        exact cents_zero
    · by_cases hf : b.fromUserId = u
      · rw [if_pos hf]
        exact h b (List.mem_cons_self b l2)
      · rw [if_neg hf]
        exact cents_zero

/-- Lookup in the net dict: the value at the first entry of the key. -/
def dget (d : List (String × ℚ)) (u : String) : ℚ :=
  match d.find? (fun p => decide (p.1 = u)) with
  | some p => p.2
  | none => 0

theorem dget_nil (u : String) : dget [] u = 0 := rfl

theorem dget_cons (p : String × ℚ) (l : List (String × ℚ)) (u : String) :
    dget (p :: l) u = if p.1 = u then p.2 else dget l u := by
  unfold dget
  by_cases h : p.1 = u
  · rw [List.find?_cons_of_pos _ (by simpa using h), if_pos h]
  · rw [List.find?_cons_of_neg _ (by simpa using h), if_neg h]

theorem dget_map_update (d : List (String × ℚ)) (k : String) (v : ℚ) (u : String)
    (huk : u ≠ k) :
    dget (d.map (fun p => if p.1 = k then (p.1, p.2 + v) else p)) u = dget d u := by
  induction d with
  | nil => rfl
  | cons p d2 ih =>
    simp only [List.map_cons]
    by_cases hpk : p.1 = k
    · rw [if_pos hpk, dget_cons, dget_cons]
      have hpu : ¬ p.1 = u := by
        intro h
        exact huk (by rw [← h, hpk])
      rw [if_neg hpu, if_neg hpu]
      exact ih
    · rw [if_neg hpk, dget_cons, dget_cons]
      by_cases hpu : p.1 = u
      · rw [if_pos hpu, if_pos hpu]
      · rw [if_neg hpu, if_neg hpu]
        exact ih

theorem dget_dictAdd (k : String) (v : ℚ) :
    ∀ (d : List (String × ℚ)) (u : String),
    dget (dictAdd d k v) u = if u = k then dget d u + v else dget d u := by
  intro d
  induction d with
  | nil =>
    intro u
    unfold dictAdd
    simp only [List.any_nil, Bool.false_eq_true, if_false, List.nil_append]
    rw [dget_cons]
    by_cases huk : u = k
    · rw [if_pos huk.symm, if_pos huk, dget_nil, zero_add]
    · rw [if_neg (fun h => huk h.symm), if_neg huk, dget_nil]
  | cons p d2 ih =>
    intro u
    unfold dictAdd
    by_cases hpk : p.1 = k
    · have hany : (p :: d2).any (fun q => decide (q.1 = k)) = true := by
        simp [List.any_cons, hpk]
      rw [if_pos hany]
      simp only [List.map_cons, if_pos hpk]
      rw [dget_cons, dget_cons]
      by_cases hpu : p.1 = u
      · have huk : u = k := by rw [← hpu, hpk]
        rw [if_pos hpu, if_pos hpu, if_pos huk]
      · have huk : ¬ u = k := by
          intro h
          exact hpu (by rw [hpk, ← h])
        rw [if_neg hpu, if_neg hpu, if_neg huk]
        exact dget_map_update d2 k v u huk
    · by_cases hany2 : d2.any (fun q => decide (q.1 = k)) = true
      · have hany : (p :: d2).any (fun q => decide (q.1 = k)) = true := by
          simp only [List.any_cons, hany2, Bool.or_true]
        rw [if_pos hany]
        simp only [List.map_cons, if_neg hpk]
        rw [dget_cons, dget_cons]
        have ih2 := ih u
        unfold dictAdd at ih2
        rw [if_pos hany2] at ih2
        by_cases hpu : p.1 = u
        · have huk : ¬ u = k := by
            intro h
            exact hpk (by rw [hpu, h])
          rw [if_pos hpu, if_pos hpu, if_neg huk]
        · rw [if_neg hpu, if_neg hpu]
          exact ih2
      · have hany : ¬ ((p :: d2).any (fun q => decide (q.1 = k)) = true) := by
          simp [List.any_cons, hpk, hany2]
        rw [if_neg hany, List.cons_append, dget_cons, dget_cons]
        have ih2 := ih u
        unfold dictAdd at ih2
        rw [if_neg hany2] at ih2
        by_cases hpu : p.1 = u
        · have huk : ¬ u = k := by
            intro h
            exact hpk (by rw [hpu, h])
          rw [if_pos hpu, if_pos hpu, if_neg huk]
        · rw [if_neg hpu, if_neg hpu]
          exact ih2

/-- Distinct keys of a net dict. -/
def keysND (d : List (String × ℚ)) : Prop := (d.map Prod.fst).Nodup

theorem keysND_nil : keysND [] := List.nodup_nil

theorem keysND_dictAdd {d : List (String × ℚ)} (k : String) (v : ℚ) (h : keysND d) :
    keysND (dictAdd d k v) := by
  unfold dictAdd
  by_cases hany : d.any (fun p => decide (p.1 = k)) = true
  · rw [if_pos hany]
    unfold keysND at h ⊢
    have hkeys : (d.map (fun p => if p.1 = k then (p.1, p.2 + v) else p)).map Prod.fst =
        d.map Prod.fst := by
      rw [List.map_map]
      apply List.map_congr_left
      intro p _
      by_cases hpk : p.1 = k
      · rw [Function.comp_apply, if_pos hpk]
      · rw [Function.comp_apply, if_neg hpk]
    rw [hkeys]
    exact h
  · rw [if_neg hany]
    unfold keysND at h ⊢
    rw [List.map_append, List.nodup_append]
    refine ⟨h, by simp, ?_⟩
    intro a ha hb
    simp only [List.map_cons, List.map_nil, List.mem_singleton] at hb
    subst hb
    rw [List.mem_map] at ha
    obtain ⟨p, hp, hpa⟩ := ha
    apply hany
    rw [List.any_eq_true]
    exact ⟨p, hp, by simpa using hpa⟩

theorem keysND_buildNet : ∀ (bs : List Balance) (d : List (String × ℚ)), keysND d →
    keysND (buildNet bs d) := by
  intro bs
  induction bs with
  | nil => intro d h; exact h
  | cons b bs2 ih =>
    intro d h
    exact ih _ (keysND_dictAdd _ _ (keysND_dictAdd _ _ h))

theorem dget_buildNet : ∀ (bs : List Balance) (d : List (String × ℚ)) (u : String),
    dget (buildNet bs d) u = dget d u + netValue bs u := by
  intro bs
  induction bs with
  | nil =>
    intro d u
    rw [netValue_nil, add_zero]
    rfl
  | cons b bs2 ih =>
    intro d u
    show dget (buildNet bs2 (dictAdd (dictAdd d b.fromUserId (-b.amount)) b.toUserId
      b.amount)) u = _
    rw [ih, dget_dictAdd, dget_dictAdd, netValue_cons]
    by_cases ht : b.toUserId = u
    · rw [if_pos ht.symm]
      by_cases hf : b.fromUserId = u
      · rw [if_pos hf.symm, if_pos ht, if_pos hf]
        ring
      · rw [if_neg (fun h => hf h.symm), if_pos ht, if_neg hf]
        ring
    · rw [if_neg (fun h => ht h.symm)]
      by_cases hf : b.fromUserId = u
      · rw [if_pos hf.symm, if_neg ht, if_pos hf]
        ring
      · rw [if_neg (fun h => hf h.symm), if_neg ht, if_neg hf]
        ring

/-- The sum of the values of a net dict. -/
def dsum (d : List (String × ℚ)) : ℚ := (d.map (fun p => p.2)).sum

theorem dsum_dictAdd (k : String) (v : ℚ) :
    ∀ (d : List (String × ℚ)), keysND d → dsum (dictAdd d k v) = dsum d + v := by
  intro d
  induction d with
  | nil =>
    intro _
    unfold dictAdd dsum
    simp
  | cons p d2 ih =>
    intro hk
    have hk2 : keysND d2 := by
      unfold keysND at hk ⊢
      simp only [List.map_cons, List.nodup_cons] at hk
      exact hk.2
    unfold dictAdd
    by_cases hpk : p.1 = k
    · have hany : (p :: d2).any (fun q => decide (q.1 = k)) = true := by
        simp [List.any_cons, hpk]
      rw [if_pos hany]
      have hnod2 : ∀ q ∈ d2, ¬ (q.1 = k) := by
        intro q hq hqk
        unfold keysND at hk
        simp only [List.map_cons, List.nodup_cons] at hk
        apply hk.1
        rw [List.mem_map]
        exact ⟨q, hq, by rw [hqk, ← hpk]⟩
      have hmapid : d2.map (fun q => if q.1 = k then (q.1, q.2 + v) else q) = d2 := by
        have := List.map_congr_left (l := d2)
          (f := fun q : String × ℚ => if q.1 = k then (q.1, q.2 + v) else q) (g := id)
          (fun q hq => by
            show (if q.1 = k then (q.1, q.2 + v) else q) = id q
            rw [if_neg (hnod2 q hq)]
            rfl)
        rw [this, List.map_id]
      simp only [List.map_cons, if_pos hpk, hmapid]
      unfold dsum
      simp only [List.map_cons, List.sum_cons]
      ring
    · by_cases hany2 : d2.any (fun q => decide (q.1 = k)) = true
      · have hany : (p :: d2).any (fun q => decide (q.1 = k)) = true := by
          simp only [List.any_cons, hany2, Bool.or_true]
        rw [if_pos hany]
        simp only [List.map_cons, if_neg hpk]
        have ih2 := ih hk2
        unfold dictAdd at ih2
        rw [if_pos hany2] at ih2
        unfold dsum at ih2 ⊢
        simp only [List.map_cons, List.sum_cons]
        rw [ih2]
        ring
      · have hany : ¬ ((p :: d2).any (fun q => decide (q.1 = k)) = true) := by
          simp [List.any_cons, hpk, hany2]
        rw [if_neg hany]
        unfold dsum
        rw [List.cons_append]
        simp only [List.map_cons, List.sum_cons, List.map_append, List.sum_append]
        simp only [List.map_cons, List.map_nil, List.sum_cons, List.sum_nil]
        ring

theorem dsum_buildNet : ∀ (bs : List Balance) (d : List (String × ℚ)), keysND d →
    dsum (buildNet bs d) = dsum d := by
  intro bs
  induction bs with
  | nil => intro d _; rfl
  | cons b bs2 ih =>
    intro d hk
    show dsum (buildNet bs2 (dictAdd (dictAdd d b.fromUserId (-b.amount)) b.toUserId
      b.amount)) = _
    rw [ih _ (keysND_dictAdd _ _ (keysND_dictAdd _ _ hk)),
      dsum_dictAdd _ _ _ (keysND_dictAdd _ _ hk), dsum_dictAdd _ _ _ hk]
    ring

theorem dget_of_mem : ∀ {d : List (String × ℚ)}, keysND d → ∀ {p}, p ∈ d →
    dget d p.1 = p.2 := by
  intro d
  induction d with
  | nil => intro _ p hp; exact absurd hp (List.not_mem_nil p)
  | cons q d2 ih =>
    intro hk p hp
    have hk2 : keysND d2 := by
      unfold keysND at hk ⊢
      simp only [List.map_cons, List.nodup_cons] at hk
      exact hk.2
    rw [dget_cons]
    rcases List.mem_cons.mp hp with rfl | hp2
    · rw [if_pos rfl]
    · by_cases hq : q.1 = p.1
      · exfalso
        unfold keysND at hk
        simp only [List.map_cons, List.nodup_cons] at hk
        apply hk.1
        rw [List.mem_map]
        exact ⟨p, hp2, hq.symm⟩
      · rw [if_neg hq]
        exact ih hk2 hp2

theorem filter_key_nd : ∀ {d : List (String × ℚ)}, keysND d → ∀ (u : String),
    d.filter (fun p => decide (p.1 = u)) = [] ∨
    d.filter (fun p => decide (p.1 = u)) = [(u, dget d u)] := by
  intro d
  induction d with
  | nil => intro _ u; exact Or.inl rfl
  | cons p d2 ih =>
    intro hk u
    have hk2 : keysND d2 := by
      unfold keysND at hk ⊢
      simp only [List.map_cons, List.nodup_cons] at hk
      exact hk.2
    rw [List.filter_cons, dget_cons]
    by_cases hpu : p.1 = u
    · rw [if_pos (by simpa using hpu), if_pos hpu]
      have hempty : d2.filter (fun q => decide (q.1 = u)) = [] := by
        rw [List.filter_eq_nil_iff]
        intro q hq
        simp only [decide_eq_true_eq]
        intro hqu
        unfold keysND at hk
        simp only [List.map_cons, List.nodup_cons] at hk
        apply hk.1
        rw [List.mem_map]
        exact ⟨q, hq, by rw [hqu, ← hpu]⟩
      rw [hempty]
      right
      have : p = (u, p.2) := by
        rw [Prod.ext_iff]
        exact ⟨hpu, rfl⟩
      rw [← this]
    · rw [if_neg (by simpa using hpu), if_neg hpu]
      exact ih hk2 u

theorem dsum_cons (p : String × ℚ) (l : List (String × ℚ)) :
    dsum (p :: l) = p.2 + dsum l := by
  unfold dsum
  rw [List.map_cons, List.sum_cons]

theorem dsum_perm {l1 l2 : List (String × ℚ)} (h : l1.Perm l2) : dsum l1 = dsum l2 :=
  List.Perm.sum_eq (List.Perm.map _ h)

theorem dsum_map_neg (l : List (String × ℚ)) :
    dsum (l.map (fun p => (p.1, -p.2))) = -dsum l := by
  induction l with
  | nil => simp [dsum]
  | cons p l2 ih =>
    rw [List.map_cons, dsum_cons, dsum_cons, ih]
    ring

theorem dsum_split (l : List (String × ℚ))
    (h : ∀ p ∈ l, p.2 = 0 ∨ p.2 < -(1/100) ∨ 1/100 < p.2) :
    dsum l = dsum (l.filter (fun p => decide (p.2 < -(1/100)))) +
      dsum (l.filter (fun p => decide (1/100 < p.2))) := by
  induction l with
  | nil => simp [dsum]
  | cons p l2 ih =>
    have ih2 := ih (fun q hq => h q (List.mem_cons_of_mem p hq))
    rw [dsum_cons, List.filter_cons, List.filter_cons]
    rcases h p (List.mem_cons_self p l2) with h0 | hneg | hpos
    · rw [if_neg (by simp [h0]), if_neg (by simp [h0]), h0, zero_add]
      exact ih2
    · rw [if_pos (by simpa using hneg), if_neg (by simp; linarith), dsum_cons]
      rw [ih2]
      ring
    · rw [if_neg (by simp; linarith), if_pos (by simpa using hpos), dsum_cons]
      rw [ih2]
      ring

/-- Total value of a user's entries in a debtor/creditor working list. -/
def debtTotal (l : List (String × ℚ)) (u : String) : ℚ :=
  ((l.filter (fun p => decide (p.1 = u))).map (fun p => p.2)).sum

theorem debtTotal_nil (u : String) : debtTotal [] u = 0 := rfl

theorem debtTotal_cons (k : String) (v : ℚ) (l : List (String × ℚ)) (u : String) :
    debtTotal ((k, v) :: l) u = (if k = u then v else 0) + debtTotal l u := by
  unfold debtTotal
  rw [List.filter_cons]
  by_cases h : k = u
  · rw [if_pos (by simpa using h), if_pos h, List.map_cons, List.sum_cons]
  · rw [if_neg (by simpa using h), if_neg h, zero_add]

theorem debtTotal_perm {l1 l2 : List (String × ℚ)} (h : l1.Perm l2) (u : String) :
    debtTotal l1 u = debtTotal l2 u :=
  List.Perm.sum_eq (List.Perm.map _ (List.Perm.filter _ h))

theorem debtTotal_map_neg (l : List (String × ℚ)) (u : String) :
    debtTotal (l.map (fun p => (p.1, -p.2))) u = -debtTotal l u := by
  induction l with
  | nil => simp [debtTotal]
  | cons p l2 ih =>
    obtain ⟨k, v⟩ := p
    rw [List.map_cons, debtTotal_cons, debtTotal_cons, ih]
    by_cases h : k = u
    · rw [if_pos h, if_pos h]
      ring
    · rw [if_neg h, if_neg h]
      ring

theorem eq_nil_of_dsum_zero {l : List (String × ℚ)}
    (hpos : ∀ p ∈ l, 0 < p.2) (hsum : dsum l = 0) : l = [] := by
  cases l with
  | nil => rfl
  | cons p l2 =>
    exfalso
    have h1 : 0 < p.2 := hpos p (List.mem_cons_self p l2)
    have h2 : 0 ≤ dsum l2 := by
      apply List.sum_nonneg
      intro x hx
      rw [List.mem_map] at hx
      obtain ⟨q, hq, rfl⟩ := hx
      exact le_of_lt (hpos q (List.mem_cons_of_mem p hq))
    rw [dsum_cons] at hsum
    linarith

/-- The greedy matching loop creates, for every user, a net position equal
to that user's total credit entries minus total debt entries, provided all
working amounts are whole cents, positive, and the two sides balance. -/
theorem simplifyLoop_net (g : String) (ds cs : List (String × ℚ)) :
    (∀ p ∈ ds, Cents p.2 ∧ 0 < p.2) →
    (∀ p ∈ cs, Cents p.2 ∧ 0 < p.2) →
    dsum ds = dsum cs →
    ∀ u, netValue (simplifyLoop g ds cs) u = debtTotal cs u - debtTotal ds u := by
  induction ds, cs using simplifyLoop.induct g with
  | case1 cs =>
    intro _ hcs hsum u
    have hnil : cs = [] := eq_nil_of_dsum_zero (fun p hp => (hcs p hp).2)
      (by rw [← hsum]; rfl)
    subst hnil
    show netValue (simplifyLoop g [] []) u = _
    rw [show simplifyLoop g [] [] = [] from by simp [simplifyLoop]]
    rw [netValue_nil, debtTotal_nil]
    ring
  | case2 head tail =>
    intro hds _ hsum u
    exfalso
    have h1 : 0 < head.2 := (hds head (List.mem_cons_self head tail)).2
    have h2 : 0 ≤ dsum tail := by
      apply List.sum_nonneg
      intro x hx
      rw [List.mem_map] at hx
      obtain ⟨q, hq, rfl⟩ := hx
      exact le_of_lt (hds q (List.mem_cons_of_mem head hq)).2
    rw [dsum_cons] at hsum
    have h3 : dsum ([] : List (String × ℚ)) = 0 := rfl
    rw [h3] at hsum
    linarith
  | case3 debtor debt ds creditor credit cs amount dRes cRes hd0x hc0x ih =>
    intro hds hcs hsum u
    have hd : debt - min debt credit < 1/100 := hd0x
    have hc : credit - min debt credit < 1/100 := hc0x
    have hdeb := hds (debtor, debt) (List.mem_cons_self _ ds)
    have hcred := hcs (creditor, credit) (List.mem_cons_self _ cs)
    have hca : Cents (min debt credit) := cents_min hdeb.1 hcred.1
    have hd0 : debt - min debt credit = 0 :=
      cents_eq_zero_of_lt_hundredth (cents_sub hdeb.1 hca)
        (by have := min_le_left debt credit; linarith) hd
    have hc0 : credit - min debt credit = 0 :=
      cents_eq_zero_of_lt_hundredth (cents_sub hcred.1 hca)
        (by have := min_le_right debt credit; linarith) hc
    have hdc : debt = credit := by linarith
    have hmd : min debt credit = debt := by linarith
    have hloop : simplifyLoop g ((debtor, debt) :: ds) ((creditor, credit) :: cs) =
        (⟨g, debtor, creditor, round2 (min debt credit)⟩ : Balance) ::
          simplifyLoop g ds cs := by
      rw [simplifyLoop]
      rw [if_pos hd, if_pos hc]
    rw [hloop, netValue_cons]
    have hsum2 : dsum ds = dsum cs := by
      rw [dsum_cons, dsum_cons] at hsum
      simp only at hsum
      linarith
    rw [ih (fun p hp => hds p (List.mem_cons_of_mem _ hp))
      (fun p hp => hcs p (List.mem_cons_of_mem _ hp)) hsum2 u]
    rw [debtTotal_cons, debtTotal_cons]
    dsimp only
    rw [round2_eq_of_cents hca]
    split_ifs <;> linarith
  | case4 debtor debt ds creditor credit cs amount dRes cRes hd0x hc0x ih =>
    intro hds hcs hsum u
    have hd : debt - min debt credit < 1/100 := hd0x
    have hc : ¬ credit - min debt credit < 1/100 := hc0x
    have hdeb := hds (debtor, debt) (List.mem_cons_self _ ds)
    have hcred := hcs (creditor, credit) (List.mem_cons_self _ cs)
    have hca : Cents (min debt credit) := cents_min hdeb.1 hcred.1
    have hd0 : debt - min debt credit = 0 :=
      cents_eq_zero_of_lt_hundredth (cents_sub hdeb.1 hca)
        (by have := min_le_left debt credit; linarith) hd
    have hmd : min debt credit = debt := by linarith
    have hcr : 0 < credit - min debt credit := by
      by_contra hcon
      push_neg at hcon
      have := min_le_right debt credit
      exact hc (by linarith)
    have hloop : simplifyLoop g ((debtor, debt) :: ds) ((creditor, credit) :: cs) =
        (⟨g, debtor, creditor, round2 (min debt credit)⟩ : Balance) ::
          simplifyLoop g ds ((creditor, credit - min debt credit) :: cs) := by
      rw [simplifyLoop]
      rw [if_pos hd, if_neg hc]
    rw [hloop, netValue_cons]
    have hsum2 : dsum ds = dsum ((creditor, credit - min debt credit) :: cs) := by
      rw [dsum_cons, dsum_cons] at hsum
      rw [dsum_cons]
      simp only at hsum ⊢
      linarith
    have hcs2 : ∀ p ∈ (creditor, credit - min debt credit) :: cs, Cents p.2 ∧ 0 < p.2 := by
      intro p hp
      rcases List.mem_cons.mp hp with rfl | hp2
      · exact ⟨cents_sub hcred.1 hca, hcr⟩
      · exact hcs p (List.mem_cons_of_mem _ hp2)
    rw [ih (fun p hp => hds p (List.mem_cons_of_mem _ hp)) hcs2 hsum2 u]
    rw [debtTotal_cons, debtTotal_cons, debtTotal_cons]
    dsimp only
    rw [round2_eq_of_cents hca]
    have hcr2 : cRes = credit - min debt credit := rfl
    split_ifs <;> linarith
  | case5 debtor debt ds creditor credit cs amount dRes hd0x ih =>
    intro hds hcs hsum u
    have hd : ¬ debt - min debt credit < 1/100 := hd0x
    have hdeb := hds (debtor, debt) (List.mem_cons_self _ ds)
    have hcred := hcs (creditor, credit) (List.mem_cons_self _ cs)
    have hca : Cents (min debt credit) := cents_min hdeb.1 hcred.1
    have hmc : min debt credit = credit := by
      rcases le_total debt credit with h | h
      · exfalso
        exact hd (by rw [min_eq_left h]; norm_num)
      · exact min_eq_right h
    have hdr : 0 < debt - min debt credit := by
      have h1 : (1:ℚ)/100 ≤ debt - min debt credit := not_lt.mp hd
      linarith
    have hloop : simplifyLoop g ((debtor, debt) :: ds) ((creditor, credit) :: cs) =
        (⟨g, debtor, creditor, round2 (min debt credit)⟩ : Balance) ::
          simplifyLoop g ((debtor, debt - min debt credit) :: ds) cs := by
      rw [simplifyLoop]
      rw [if_neg hd]
    rw [hloop, netValue_cons]
    have hsum2 : dsum ((debtor, debt - min debt credit) :: ds) = dsum cs := by
      rw [dsum_cons, dsum_cons] at hsum
      rw [dsum_cons]
      simp only at hsum ⊢
      linarith
    have hds2 : ∀ p ∈ (debtor, debt - min debt credit) :: ds, Cents p.2 ∧ 0 < p.2 := by
      intro p hp
      rcases List.mem_cons.mp hp with rfl | hp2
      · exact ⟨cents_sub hdeb.1 hca, hdr⟩
      · exact hds p (List.mem_cons_of_mem _ hp2)
    rw [ih hds2 (fun p hp => hcs p (List.mem_cons_of_mem _ hp)) hsum2 u]
    rw [debtTotal_cons, debtTotal_cons, debtTotal_cons]
    dsimp only
    rw [round2_eq_of_cents hca]
    have hdr2 : dRes = debt - min debt credit := rfl
    split_ifs <;> linarith

theorem cents_vals_dictAdd {d : List (String × ℚ)} (k : String) {v : ℚ}
    (hd : ∀ p ∈ d, Cents p.2) (hv : Cents v) : ∀ p ∈ dictAdd d k v, Cents p.2 := by
  unfold dictAdd
  by_cases hany : d.any (fun p => decide (p.1 = k)) = true
  · rw [if_pos hany]
    intro p hp
    rw [List.mem_map] at hp
    obtain ⟨q, hq, rfl⟩ := hp
    by_cases hqk : q.1 = k
    · rw [if_pos hqk]
      exact cents_add (hd q hq) hv
    · rw [if_neg hqk]
      exact hd q hq
  · rw [if_neg hany]
    intro p hp
    rcases List.mem_append.mp hp with hp1 | hp2
    · exact hd p hp1
    · rw [List.mem_singleton] at hp2
      subst hp2
      exact hv

theorem cents_vals_buildNet : ∀ (bs : List Balance) (d : List (String × ℚ)),
    (∀ b ∈ bs, Cents b.amount) → (∀ p ∈ d, Cents p.2) →
    ∀ p ∈ buildNet bs d, Cents p.2 := by
  intro bs
  induction bs with
  | nil => intro d _ hd; exact hd
  | cons b bs2 ih =>
    intro d hbs hd
    exact ih _ (fun x hx => hbs x (List.mem_cons_of_mem b hx))
      (cents_vals_dictAdd _
        (cents_vals_dictAdd _ hd (cents_neg (hbs b (List.mem_cons_self b bs2))))
        (hbs b (List.mem_cons_self b bs2)))

theorem dget_eq_zero_of_filter_nil {d : List (String × ℚ)} {u : String}
    (h : d.filter (fun p => decide (p.1 = u)) = []) : dget d u = 0 := by
  unfold dget
  have hnone : d.find? (fun p => decide (p.1 = u)) = none := by
    rw [List.find?_eq_none]
    intro p hp
    have := List.filter_eq_nil_iff.mp h p hp
    simpa using this
  rw [hnone]

/-- C3 amended: whenever every per-user net position computed from the
group's (rounded) balance list is either exactly zero or larger than one
cent in absolute value, the simplified transaction list produced by
get_simplified_balances preserves every user's net position. -/
theorem c3_simplification_preserves_net (store : List Balance) (g : String)
    (h : ∀ p ∈ buildNet (get_group_balances store g) [], p.2 = 0 ∨ 1/100 < |p.2|) :
    ∀ u, netValue (get_simplified_balances store g) u =
      netValue (get_group_balances store g) u := by
  intro u
  have hND : keysND (buildNet (get_group_balances store g) []) :=
    keysND_buildNet _ [] keysND_nil
  have hcents : ∀ p ∈ buildNet (get_group_balances store g) [], Cents p.2 := by
    apply cents_vals_buildNet
    · intro b hb
      obtain ⟨r, _, _, _, _, _, h5⟩ := mem_group_balances hb
      rw [h5]
      exact cents_round2 r.amount
    · intro p hp
      exact absurd hp (List.not_mem_nil p)
  have htri : ∀ p ∈ buildNet (get_group_balances store g) [],
      p.2 = 0 ∨ p.2 < -(1/100) ∨ 1/100 < p.2 := by
    intro p hp
    rcases h p hp with h0 | habs
    · exact Or.inl h0
    · rcases lt_abs.mp habs with h1 | h1
      · exact Or.inr (Or.inr h1)
      · exact Or.inr (Or.inl (by linarith))
  have hpermD := List.mergeSort_perm
    (((buildNet (get_group_balances store g) []).filter
      (fun p => decide (p.2 < -(1/100)))).map (fun p => (p.1, -p.2)))
    (fun a b => decide (b.2 ≤ a.2))
  have hpermC := List.mergeSort_perm
    ((buildNet (get_group_balances store g) []).filter (fun p => decide (1/100 < p.2)))
    (fun a b => decide (b.2 ≤ a.2))
  have hdSmem : ∀ p ∈ (((buildNet (get_group_balances store g) []).filter
      (fun p => decide (p.2 < -(1/100)))).map (fun p => (p.1, -p.2))).mergeSort
        (fun a b => decide (b.2 ≤ a.2)), Cents p.2 ∧ 0 < p.2 := by
    intro p hp
    have hp2 := hpermD.mem_iff.mp hp
    rw [List.mem_map] at hp2
    obtain ⟨q, hq, rfl⟩ := hp2
    have hqm := List.mem_of_mem_filter hq
    have hqlt : q.2 < -(1/100) := by
      have := List.of_mem_filter hq
      simpa using this
    exact ⟨cents_neg (hcents q hqm), by simpa using by linarith⟩
  have hcSmem : ∀ p ∈ ((buildNet (get_group_balances store g) []).filter
      (fun p => decide (1/100 < p.2))).mergeSort
        (fun a b => decide (b.2 ≤ a.2)), Cents p.2 ∧ 0 < p.2 := by
    intro p hp
    have hp2 := hpermC.mem_iff.mp hp
    have hpm := List.mem_of_mem_filter hp2
    have hplt : 1/100 < p.2 := by
      have := List.of_mem_filter hp2
      simpa using this
    exact ⟨hcents p hpm, by linarith⟩
  have hsum0 : dsum (buildNet (get_group_balances store g) []) = 0 := by
    rw [dsum_buildNet _ _ keysND_nil]
    rfl
  have hsplit := dsum_split (buildNet (get_group_balances store g) []) htri
  have hsum : dsum ((((buildNet (get_group_balances store g) []).filter
      (fun p => decide (p.2 < -(1/100)))).map (fun p => (p.1, -p.2))).mergeSort
        (fun a b => decide (b.2 ≤ a.2))) =
      dsum (((buildNet (get_group_balances store g) []).filter
        (fun p => decide (1/100 < p.2))).mergeSort (fun a b => decide (b.2 ≤ a.2))) := by
    rw [dsum_perm hpermD, dsum_perm hpermC, dsum_map_neg]
    linarith
  have hloop := simplifyLoop_net g _ _ hdSmem hcSmem hsum u
  show netValue (simplifyLoop g _ _) u = netValue (get_group_balances store g) u
  rw [hloop, debtTotal_perm hpermD u, debtTotal_perm hpermC u, debtTotal_map_neg]
  have hval : dget (buildNet (get_group_balances store g) []) u =
      netValue (get_group_balances store g) u := by
    rw [dget_buildNet, dget_nil, zero_add]
  have hcComm : ((buildNet (get_group_balances store g) []).filter
        (fun p => decide (1/100 < p.2))).filter (fun p => decide (p.1 = u)) =
      ((buildNet (get_group_balances store g) []).filter
        (fun p => decide (p.1 = u))).filter (fun p => decide (1/100 < p.2)) :=
    List.filter_comm _ _ _
  have hdComm : ((buildNet (get_group_balances store g) []).filter
        (fun p => decide (p.2 < -(1/100)))).filter (fun p => decide (p.1 = u)) =
      ((buildNet (get_group_balances store g) []).filter
        (fun p => decide (p.1 = u))).filter (fun p => decide (p.2 < -(1/100))) :=
    List.filter_comm _ _ _
  rcases filter_key_nd hND u with hk | hk
  · have h0 : dget (buildNet (get_group_balances store g) []) u = 0 :=
      dget_eq_zero_of_filter_nil hk
    have hc0 : debtTotal ((buildNet (get_group_balances store g) []).filter
        (fun p => decide (1/100 < p.2))) u = 0 := by
      unfold debtTotal
      rw [hcComm, hk]
      rfl
    have hd0 : debtTotal ((buildNet (get_group_balances store g) []).filter
        (fun p => decide (p.2 < -(1/100)))) u = 0 := by
      unfold debtTotal
      rw [hdComm, hk]
      rfl
    rw [hc0, hd0, ← hval, h0]
    ring
  · have hmem : (u, dget (buildNet (get_group_balances store g) []) u) ∈
        buildNet (get_group_balances store g) [] := by
      apply List.mem_of_mem_filter (p := fun p => decide (p.1 = u))
      rw [hk]
      exact List.mem_singleton_self _
    have hc0 : debtTotal ((buildNet (get_group_balances store g) []).filter
        (fun p => decide (1/100 < p.2))) u =
        if 1/100 < dget (buildNet (get_group_balances store g) []) u then
          dget (buildNet (get_group_balances store g) []) u else 0 := by
      unfold debtTotal
      rw [hcComm, hk, List.filter_cons]
      by_cases hvc : 1/100 < dget (buildNet (get_group_balances store g) []) u
      · rw [if_pos (by simpa using hvc), if_pos hvc]
        simp
      · rw [if_neg (by simpa using hvc), if_neg hvc]
        rfl
    have hd0 : debtTotal ((buildNet (get_group_balances store g) []).filter
        (fun p => decide (p.2 < -(1/100)))) u =
        if dget (buildNet (get_group_balances store g) []) u < -(1/100) then
          dget (buildNet (get_group_balances store g) []) u else 0 := by
      unfold debtTotal
      rw [hdComm, hk, List.filter_cons]
      by_cases hvd : dget (buildNet (get_group_balances store g) []) u < -(1/100)
      · rw [if_pos (by simpa using hvd), if_pos hvd]
        simp
      · rw [if_neg (by simpa using hvd), if_neg hvd]
        rfl
    rw [hc0, hd0, ← hval]
    rcases htri _ hmem with h0 | hneg | hpos
    · simp only at h0
      rw [h0]
      norm_num
    · simp only at hneg
      rw [if_neg (by linarith), if_pos hneg]
      ring
    · simp only at hpos
      rw [if_pos hpos, if_neg (by linarith)]
      ring

/-- C3 witness: the amended theorem applied at a concrete one-balance
store, with the threshold hypothesis discharged by evaluation. -/
theorem c3_witness :
    netValue (get_simplified_balances [⟨"g", "a", "b", 50⟩] "g") "b" =
      netValue (get_group_balances [⟨"g", "a", "b", 50⟩] "g") "b" :=
  c3_simplification_preserves_net [⟨"g", "a", "b", 50⟩] "g" (by
    norm_num +decide [buildNet, dictAdd, get_group_balances, map_row_to_balance,
      round2, roundHalfEven, Int.fract, round_eq, List.filter_cons, List.filter_nil,
      List.any_cons, List.any_nil, List.mem_cons, List.not_mem_nil]) "b"

end CredResolve
